import Mathlib

/-!
# trendvision-gps: shallow embedding of `tools/trendvision-gps/main.go`

The program reads the subtitle track of a dashcam video (NMEA sentences in
length-prefixed packets), pairs every accepted fix with the presentation
timestamp of its packet and writes a GPX track.

Go strings and byte slices are lists of bytes (`Nat`, a real byte being below
256).  `float64` is modelled by `F64`, an IEEE-754 binary64 value with
round-to-nearest-even arithmetic.  Go `int` is the 64-bit one.
-/

namespace TrendvisionGps

/-! ## Byte strings -/

/-- Go `string` / `[]byte`: a sequence of bytes. -/
abbrev Str := List Nat

/-- The bytes of an ASCII literal. -/
def B (s : String) : Str := s.toList.map Char.toNat

/-- Go `strings.Index(s, c)` for a one-byte separator: index of the first
occurrence, `-1` when there is none. -/
def indexByte (c : Nat) : Str → Int
  | [] => -1
  | b :: rest =>
    if b = c then 0
    else
      let r := indexByte c rest
      if r < 0 then -1 else r + 1

/-- Go `strings.Split(s, sep)` for a one-byte separator. -/
def splitOn (sep : Nat) : Str → List Str
  | [] => [[]]
  | b :: rest =>
    if b = sep then [] :: splitOn sep rest
    else
      match splitOn sep rest with
      | f :: fs => (b :: f) :: fs
      | [] => [[b]]

/-- Go slice expression `s[lo:hi]` (for `lo ≤ hi ≤ len(s)`). -/
def slice (s : Str) (lo hi : Nat) : Str := (s.take hi).drop lo

/-- Decimal digits of a natural number, as bytes. -/
def natDigits (n : Nat) : Str := (Nat.toDigits 10 n).map Char.toNat

/-- Go `%d` of an `int`. -/
def fmtInt (i : Int) : Str :=
  if i < 0 then 45 :: natDigits i.natAbs else natDigits i.natAbs

/-- Go `%02d` of an `int`: at least two characters, padded with `0` on the left
(the sign counts in the width and comes before the padding). -/
def fmtInt02 (i : Int) : Str :=
  let d := natDigits i.natAbs
  if i < 0 then 45 :: d
  else if d.length < 2 then 48 :: d else d

/-- Value of a run of decimal digits; `none` when a byte is not a digit. -/
def digitsVal : Str → Nat → Option Nat
  | [], acc => some acc
  | b :: rest, acc =>
    if 48 ≤ b ∧ b ≤ 57 then digitsVal rest (acc * 10 + (b - 48)) else none

/-- Go `strconv.Atoi` with the error dropped (`n, _ := strconv.Atoi(s)`): an
optional sign and at least one decimal digit; `0` on a syntax error, the
nearest 64-bit bound on a range error. -/
def atoi (s : Str) : Int :=
  let neg := s.head? = some 45
  let body := if s.head? = some 45 ∨ s.head? = some 43 then s.drop 1 else s
  if body = [] then 0
  else
    match digitsVal body 0 with
    | none => 0
    | some n =>
      if neg then (if n > 2 ^ 63 then -(2 ^ 63 : Int) else -(n : Int))
      else if n ≥ 2 ^ 63 then (2 ^ 63 - 1 : Int) else (n : Int)

/-! ## float64 -/

/-- IEEE-754 binary64.  A finite value is `(-1)^neg * m * 2^e`, kept in the
form the format stores: `m < 2^53`, `-1074 ≤ e ≤ 971`, and `2^52 ≤ m` unless
`e = -1074` (subnormals and the two zeros). -/
inductive F64 where
  | nan : F64
  | inf (neg : Bool) : F64
  | fin (neg : Bool) (m : Nat) (e : Int) : F64
  deriving DecidableEq, Repr

namespace F64

/-- Nearest integer to `n / d`, ties to even. -/
def rne (n d : Nat) : Nat :=
  let q := n / d
  let r := n % d
  if 2 * r < d then q
  else if d < 2 * r then q + 1
  else if q % 2 = 0 then q else q + 1

/-- Numerator and denominator of `n / d * 2^s`. -/
def scaled (n d : Nat) (s : Int) : Nat × Nat :=
  if 0 ≤ s then (n * 2 ^ s.toNat, d) else (n, d * 2 ^ (-s).toNat)

/-- Floor of the binary logarithm (`0` for `0`), `fuel` bounding the halvings. -/
def log2Aux : Nat → Nat → Nat
  | 0, _ => 0
  | fuel + 1, n => if n < 2 then 0 else log2Aux fuel (n / 2) + 1

/-- Floor of the binary logarithm of `n` (`0` for `0`). -/
def log2 (n : Nat) : Nat := log2Aux n n

/-- The exponent `e` of the binade of `n / d * 2^k` (`n, d > 0`), not below the
subnormal exponent: `2^52 ≤ n / d * 2^(k - e) < 2^53`, or `e = -1074`. -/
def binade (n d : Nat) (k : Int) : Int :=
  let e0 : Int := max ((log2 n : Int) - (log2 d : Int) + k - 52) (-1074)
  let ab := scaled n d (k - e0)
  if ab.1 / ab.2 < 2 ^ 52 ∧ -1074 < e0 then e0 - 1 else e0

/-- The binary64 nearest to `(-1)^neg * n / d * 2^k` (`d > 0`), ties to even;
infinite from `2^1024` on. -/
def round (neg : Bool) (n d : Nat) (k : Int) : F64 :=
  if n = 0 then fin neg 0 (-1074)
  else
    let e := binade n d k
    let ab := scaled n d (k - e)
    let m := rne ab.1 ab.2
    let m1 := if m = 2 ^ 53 then 2 ^ 52 else m
    let e1 := if m = 2 ^ 53 then e + 1 else e
    if 971 < e1 then inf neg else fin neg m1 e1

/-- Positive zero. -/
def zero : F64 := fin false 0 (-1074)

/-- The float64 of an integer constant or value. -/
def ofInt (i : Int) : F64 := round (decide (i < 0)) i.natAbs 1 0

/-- Unary minus. -/
def neg : F64 → F64
  | nan => nan
  | inf s => inf (!s)
  | fin s m e => fin (!s) m e

/-- The signed numerator of a finite value over `2^e0`, for `e0 ≤ e`. -/
def numer (s : Bool) (m : Nat) (e e0 : Int) : Int :=
  let a : Int := (m * 2 ^ (e - e0).toNat : Nat)
  if s then -a else a

/-- Go `x + y`. -/
def add : F64 → F64 → F64
  | nan, _ => nan
  | _, nan => nan
  | inf s, inf t => if s = t then inf s else nan
  | inf s, fin _ _ _ => inf s
  | fin _ _ _, inf t => inf t
  | fin s m e, fin t m' e' =>
    let e0 := min e e'
    let r := numer s m e e0 + numer t m' e' e0
    if r = 0 then (if s = t then fin s 0 (-1074) else zero)
    else round (decide (r < 0)) r.natAbs 1 e0

/-- Go `x * y`. -/
def mul : F64 → F64 → F64
  | nan, _ => nan
  | _, nan => nan
  | inf s, inf t => inf (xor s t)
  | inf s, fin t m _ => if m = 0 then nan else inf (xor s t)
  | fin s m _, inf t => if m = 0 then nan else inf (xor s t)
  | fin s m e, fin t m' e' => round (xor s t) (m * m') 1 (e + e')

/-- Go `x / y` (no run-time panic for floats: a zero divisor gives an
infinity or NaN). -/
def div : F64 → F64 → F64
  | nan, _ => nan
  | _, nan => nan
  | inf _, inf _ => nan
  | inf s, fin t _ _ => inf (xor s t)
  | fin s _ _, inf t => fin (xor s t) 0 (-1074)
  | fin s m e, fin t m' e' =>
    if m' = 0 then (if m = 0 then nan else inf (xor s t))
    else round (xor s t) m m' (e - e')

/-- Go `x <= y`. -/
def le : F64 → F64 → Bool
  | nan, _ => false
  | _, nan => false
  | inf s, inf t => s || !t
  | inf s, fin _ _ _ => s
  | fin _ _ _, inf t => !t
  | fin s m e, fin t m' e' =>
    decide (numer s m e (min e e') ≤ numer t m' e' (min e e'))

/-- Go `x < y`. -/
def lt : F64 → F64 → Bool
  | nan, _ => false
  | _, nan => false
  | inf s, inf t => s && !t
  | inf s, fin _ _ _ => s
  | fin _ _ _, inf t => !t
  | fin s m e, fin t m' e' =>
    decide (numer s m e (min e e') < numer t m' e' (min e e'))

/-- Go `math.Floor`. -/
def floor : F64 → F64
  | nan => nan
  | inf s => inf s
  | fin s m e =>
    if 0 ≤ e then fin s m e
    else
      let q := m / 2 ^ (-e).toNat
      let r := m % 2 ^ (-e).toNat
      let n := if s = true ∧ r ≠ 0 then q + 1 else q
      round s n 1 0

/-- The integer a finite value truncates to (toward zero). -/
def trunc (s : Bool) (m : Nat) (e : Int) : Int :=
  let a : Int := if 0 ≤ e then ((m * 2 ^ e.toNat : Nat) : Int) else ((m / 2 ^ (-e).toNat : Nat) : Int)
  if s then -a else a

end F64

namespace F64

/-- The rational number a finite float64 stands for (`0` for NaN and the
infinities, which stand for none). -/
def toRat : F64 → ℚ
  | fin s m e => (if s then -1 else 1) * ((m : ℚ) * 2 ^ e)
  | _ => 0

/-- Whether `int(x)` is defined by the language: `x` is finite and its integer
part lies in the 64-bit range. -/
def fitsInt : F64 → Bool
  | fin s m e => decide (-(2 ^ 63 : Int) ≤ trunc s m e ∧ trunc s m e < 2 ^ 63)
  | _ => false

/-- The rational `round` rounds `n / d * 2^k` to, before the overflow check. -/
def rval (n d : Nat) (k : Int) : ℚ :=
  if n = 0 then 0
  else ((rne (scaled n d (k - binade n d k)).1 (scaled n d (k - binade n d k)).2 : Nat) : ℚ)
    * 2 ^ binade n d k

end F64

/-- What the target leaves open.  Go: "if the result type cannot represent the
value the conversion succeeds but the result value is implementation-dependent";
`oor x` is that result for a float64 `x` with no `int` counterpart (NaN, an
infinity, or a value outside the 64-bit range). -/
structure Arch where
  oor : F64 → Int

/-- The gc compiler on amd64: `CVTTSD2SQ` gives the "integer indefinite"
`-2^63` whenever the value does not fit. -/
def amd64 : Arch := ⟨fun _ => -(2 ^ 63 : Int)⟩

/-- Go `int(x)` for a `float64`. -/
def F64.toInt (A : Arch) : F64 → Int
  | F64.fin s m e =>
    let v := F64.trunc s m e
    if -(2 ^ 63 : Int) ≤ v ∧ v < 2 ^ 63 then v else A.oor (F64.fin s m e)
  | x => A.oor x

/-- Left padding with `0` up to width `w`. -/
def padZeros (w : Nat) (d : Str) : Str := List.replicate (w - d.length) 48 ++ d

/-- Go `%.<prec>f` of a `float64`: the exact value rounded to `prec` decimals,
ties to even; the sign is the sign bit; `NaN`, `+Inf`, `-Inf`. -/
def F64.fmtFixed (prec : Nat) : F64 → Str
  | F64.nan => B "NaN"
  | F64.inf s => if s then B "-Inf" else B "+Inf"
  | F64.fin s m e =>
    let ab := F64.scaled (m * 10 ^ prec) 1 e
    let n := F64.rne ab.1 ab.2
    (if s then [45] else []) ++ natDigits (n / 10 ^ prec)
      ++ (if prec = 0 then [] else 46 :: padZeros prec (natDigits (n % 10 ^ prec)))

/-! ## strconv.ParseFloat -/

/-- ASCII upper case to lower case, other bytes unchanged. -/
def foldByte (c : Nat) : Nat := if 65 ≤ c ∧ c ≤ 90 then c + 32 else c

/-- The names `strconv` reads besides numbers, when they make up all of `s`:
`inf` and `infinity` with an optional sign, `nan` without one, in any case. -/
def special (s : Str) : Option F64 :=
  match s with
  | [] => none
  | c :: rest =>
    if c = 43 ∨ c = 45 then
      if rest.map foldByte = B "inf" ∨ rest.map foldByte = B "infinity"
      then some (F64.inf (decide (c = 45))) else none
    else if s.map foldByte = B "inf" ∨ s.map foldByte = B "infinity" then some (F64.inf false)
    else if s.map foldByte = B "nan" then some F64.nan
    else none

/-- State of the mantissa scan of `readFloat`. -/
structure Scan where
  sawdot : Bool
  sawdigits : Bool
  nd : Nat
  dp : Int
  mant : Nat
  underscores : Bool

/-- The digit loop of `readFloat`: the scan state and the bytes left from the
first byte that is no part of the mantissa.  Leading zeros are skipped and
move the decimal point; `mant` holds all the significant digits. -/
def scanMant (hex : Bool) : Str → Scan → Scan × Str
  | [], st => (st, [])
  | c :: rest, st =>
    if c = 95 then scanMant hex rest { st with underscores := true }
    else if c = 46 then
      if st.sawdot then (st, c :: rest)
      else scanMant hex rest { st with sawdot := true, dp := st.nd }
    else if 48 ≤ c ∧ c ≤ 57 then
      if c = 48 ∧ st.nd = 0 then
        scanMant hex rest { st with sawdigits := true, dp := st.dp - 1 }
      else
        scanMant hex rest { st with sawdigits := true, nd := st.nd + 1,
                                    mant := st.mant * (if hex then 16 else 10) + (c - 48) }
    else if hex = true ∧ 97 ≤ foldByte c ∧ foldByte c ≤ 102 then
      scanMant hex rest { st with sawdigits := true, nd := st.nd + 1,
                                  mant := st.mant * 16 + (foldByte c - 97 + 10) }
    else (st, c :: rest)

/-- The exponent digits of `readFloat`: value (no longer growing once it has
reached 10000), whether an underscore was seen, and the bytes left. -/
def scanExp : Str → Nat → Bool → Nat × Bool × Str
  | [], e, u => (e, u, [])
  | c :: rest, e, u =>
    if c = 95 then scanExp rest e true
    else if 48 ≤ c ∧ c ≤ 57 then scanExp rest (if e < 10000 then e * 10 + (c - 48) else e) u
    else (e, u, c :: rest)

/-- Go `underscoreOK`: underscores only between digits, or between a base
prefix and a digit. -/
def underscoreOK (s : Str) : Bool :=
  let s1 := if s.head? = some 45 ∨ s.head? = some 43 then s.drop 1 else s
  let pre : Bool := match s1 with
    | z :: x :: _ => decide (z = 48 ∧ (foldByte x = 98 ∨ foldByte x = 111 ∨ foldByte x = 120))
    | _ => false
  let hex : Bool := match s1 with
    | _ :: x :: _ => pre && decide (foldByte x = 120)
    | _ => false
  let rec go : Str → Nat → Bool
    | [], saw => decide (saw ≠ 95)
    | c :: rest, saw =>
      if (48 ≤ c ∧ c ≤ 57) ∨ (hex = true ∧ 97 ≤ foldByte c ∧ foldByte c ≤ 102) then go rest 48
      else if c = 95 then (if saw ≠ 48 then false else go rest 95)
      else if saw = 95 then false
      else go rest 33
  if pre then go (s1.drop 2) 48 else go s1 94

/-- The float64 nearest to `(-1)^neg * mant * base^x`, where `base` is 10, or 2
for a hexadecimal mantissa. -/
def F64.ofScaled (neg : Bool) (hex : Bool) (mant : Nat) (x : Int) : F64 :=
  if hex then F64.round neg mant 1 x
  else if 0 ≤ x then F64.round neg (mant * 10 ^ x.toNat) 1 0
  else F64.round neg mant (10 ^ (-x).toNat) 0

/-- Go `strconv.ParseFloat(s, 64)`: the value and whether `err != nil`.  A
string that is not a number in full gives `(0, true)`; a number too large gives
an infinity with `true`; anything else the nearest float64 with `false`. -/
def parseFloat (s : Str) : F64 × Bool :=
  match special s with
  | some v => (v, false)
  | none =>
    let neg : Bool := decide (s.head? = some 45)
    let s1 := if s.head? = some 45 ∨ s.head? = some 43 then s.drop 1 else s
    let hex : Bool := match s1 with
      | z :: x :: _ :: _ => decide (z = 48 ∧ foldByte x = 120)
      | _ => false
    let sc := scanMant hex (if hex then s1.drop 2 else s1) ⟨false, false, 0, 0, 0, false⟩
    let st := sc.1
    let dp0 : Int := if st.sawdot then st.dp else st.nd
    let dp : Int := if hex then dp0 * 4 else dp0
    let nd : Int := if hex then (st.nd : Int) * 4 else st.nd
    let done (x : Int) (us : Bool) : F64 × Bool :=
      if us = true ∧ underscoreOK s = false then (F64.zero, true)
      else
        let v := F64.ofScaled neg hex st.mant x
        (v, match v with | F64.inf _ => true | _ => false)
    if st.sawdigits = false then (F64.zero, true)
    else
      match sc.2 with
      | [] => if hex then (F64.zero, true) else done (dp - nd) st.underscores
      | c :: r =>
        if foldByte c = (if hex then 112 else 101) then
          let esign : Int := if r.head? = some 45 then -1 else 1
          let r1 := if r.head? = some 45 ∨ r.head? = some 43 then r.drop 1 else r
          match r1 with
          | [] => (F64.zero, true)
          | d :: _ =>
            if d < 48 ∨ 57 < d then (F64.zero, true)
            else
              let ex := scanExp r1 0 st.underscores
              if ex.2.2 = [] then done (dp - nd + (ex.1 : Int) * esign) ex.2.1
              else (F64.zero, true)
        else (F64.zero, true)

/-! ## Coordinate decoding -/

/-- Source `parseCoord`: NMEA `DDDMM.MMMM,H` to decimal degrees. -/
def parseCoord (raw hemisphere : Str) : F64 :=
  if raw = [] then F64.zero
  else
    let dotIdx := indexByte 46 raw
    if dotIdx < 2 then F64.zero
    else
      let degStr := raw.take (dotIdx - 2).toNat
      let minStr := raw.drop (dotIdx - 2).toNat
      let deg := (parseFloat degStr).1
      let min := (parseFloat minStr).1
      let result := F64.add deg (F64.div min (F64.ofInt 60))
      if hemisphere = B "S" ∨ hemisphere = B "W" then F64.neg result else result

/-- Reference for `parseCoord`: the index of the first `.` of a string, when
it has one. -/
def firstDot : Str → Option Nat
  | [] => none
  | b :: rest => if b = 46 then some 0 else (firstDot rest).map (fun i => i + 1)

/-- Reference for `parseCoord`: the number a string denotes, `0` when it
denotes none (`strconv.ParseFloat` with the error dropped). -/
def value (s : Str) : F64 := (parseFloat s).1

/-- Reference for `parseCoord`, after the specification: with the first `.` at
index `i ≥ 2` the result is `value(raw[0 .. i-2]) + value(raw[i-2 ..]) / 60`,
negated exactly when the hemisphere is `S` or `W`; it is `0` for a string
without `.` (the empty one included) and for a first `.` at index below 2. -/
def parseCoordSpec (raw hemisphere : Str) : F64 :=
  match firstDot raw with
  | none => F64.zero
  | some i =>
    if i < 2 then F64.zero
    else
      let v := F64.add (value (raw.take (i - 2)))
        (F64.div (value (raw.drop (i - 2))) (F64.ofInt 60))
      if hemisphere = B "S" ∨ hemisphere = B "W" then F64.neg v else v

/-! ## Packet framer and sentence extractor -/

/-- One round of the framing at the top of the `for buf.Len() >= 2` loop
(lines 96-109): the payload and the rest of the reader, or `none` when the loop
stops.  It stops when fewer than two bytes remain, when the declared length
exceeds what is left, and when `buf.Read` reports `io.EOF`, which
`bytes.Reader.Read` does on an exhausted reader, also for an empty payload. -/
def readPacket : List Nat → Option (List Nat × List Nat)
  | b0 :: b1 :: rest =>
    let length := (b0 % 256) * 256 + b1 % 256
    if length > rest.length then none
    else if rest.length = 0 then none
    else some (rest.take length, rest.drop length)
  | _ => none

/-- The payloads the loop of `main` frames, in order (`fuel` bounds the number
of rounds). -/
def frameAux : Nat → List Nat → List (List Nat)
  | 0, _ => []
  | fuel + 1, buf =>
    match readPacket buf with
    | none => []
    | some (payload, rest) => payload :: frameAux fuel rest

/-- The framed payloads of a raw stream: every round consumes two bytes or
more, so `len / 2` rounds are enough. -/
def frame (raw : List Nat) : List (List Nat) := frameAux (raw.length / 2) raw

/-- The regular expression `\$G[NP]RMC,([^;*]+)` anchored at the head of `s`:
the capture group, when it matches there. -/
def matchHere (s : List Nat) : Option Str :=
  match s with
  | d :: g :: t :: r :: m :: c :: k :: rest =>
    if d = 36 ∧ g = 71 ∧ (t = 78 ∨ t = 80) ∧ r = 82 ∧ m = 77 ∧ c = 67 ∧ k = 44 then
      let body := rest.takeWhile (fun b => decide (b ≠ 59 ∧ b ≠ 42))
      if body = [] then none else some body
    else none
  | _ => none

/-- Go `re.FindSubmatch(payload)` for `\$G[NP]RMC,([^;*]+)`: the capture group
`m[1]` of the leftmost match, `none` for `m == nil`. -/
def findSubmatch : List Nat → Option Str
  | [] => none
  | b :: rest =>
    match matchHere (b :: rest) with
    | some body => some body
    | none => findSubmatch rest

/-! ## Date decoding -/

/-- Source `parseDate`: NMEA `DDMMYY` to `YYYY-MM-DD`. -/
def parseDate (raw : Str) : Str :=
  if raw.length < 6 then B "1970-01-01"
  else
    let dd := slice raw 0 2
    let mm := slice raw 2 4
    let yy := atoi (slice raw 4 6)
    let year : Int := if yy < 80 then 2000 + yy else 1900 + yy
    fmtInt year ++ B "-" ++ mm ++ B "-" ++ dd

/-! ## Synchronizer, deduplicator and emitter (`main`) -/

/-- The local type `trackpoint` of `main`. -/
structure Trackpoint where
  lat : F64
  lon : F64
  speed : F64
  course : F64
  date : Str
  sec : Int
  deriving DecidableEq, Repr

/-- The variables `main` carries across the packet loop. -/
structure State where
  packetIdx : Nat
  points : List Trackpoint
  firstFixPTS : F64
  lastNMEATime : Str
  lastKey : Str
  deriving DecidableEq, Repr

/-- The variables before the loop (lines 76, 86-89). -/
def State.init : State := ⟨0, [], F64.ofInt (-1), [], []⟩

/-- The constant `1.852` as a float64. -/
def kmhPerKnot : F64 := F64.round false 1852 1000 0

/-- Lines 122-125: the UTC time field cut at its first `.`. -/
def nmeaKey (field0 : Str) : Str :=
  let dotIdx := indexByte 46 field0
  if dotIdx ≥ 0 then field0.take dotIdx.toNat else field0

/-- Line 147: `fmt.Sprintf("%.7f,%.7f,%.1f,%.1f", lat, lon, spd, crs)`. -/
def formatKey (lat lon spd crs : F64) : Str :=
  F64.fmtFixed 7 lat ++ 44 :: (F64.fmtFixed 7 lon ++ 44 :: (F64.fmtFixed 1 spd ++ 44 :: F64.fmtFixed 1 crs))

/-- Line 115: `len(fields) >= 9 && fields[1] == "A"`. -/
def validFix (fields : List Str) : Bool :=
  decide (fields.length ≥ 9 ∧ fields.getD 1 [] = B "A")

/-- The body of the packet loop after the framing (lines 111-165), for one
payload: every path, the three `continue` included, ends with `packetIdx++`.
The one read of `pts` is at an index the guard of line 116 has bounded. -/
def step (A : Arch) (pts : List F64) (speed : F64) (st : State) (payload : List Nat) : State :=
  match findSubmatch payload with
  | none => { st with packetIdx := st.packetIdx + 1 }
  | some body =>
    let fields := splitOn 44 body
    if validFix fields then
      if h : st.packetIdx ≥ pts.length then { st with packetIdx := st.packetIdx + 1 }
      else
        let nmeaTime := nmeaKey (fields.getD 0 [])
        if nmeaTime = st.lastNMEATime then { st with packetIdx := st.packetIdx + 1 }
        else
          let ptsVal := pts.get ⟨st.packetIdx, Nat.lt_of_not_le h⟩
          let first := if F64.lt st.firstFixPTS F64.zero then ptsVal else st.firstFixPTS
          let sec := F64.toInt A (F64.floor (F64.div ptsVal speed))
          let lat := parseCoord (fields.getD 2 []) (fields.getD 3 [])
          let lon := parseCoord (fields.getD 4 []) (fields.getD 5 [])
          let knots := (parseFloat (fields.getD 6 [])).1
          let spd := F64.mul knots kmhPerKnot
          let crs := (parseFloat (fields.getD 7 [])).1
          let date := parseDate (fields.getD 8 [])
          let key := formatKey lat lon spd crs
          if key = st.lastKey then
            { st with packetIdx := st.packetIdx + 1, lastNMEATime := nmeaTime, firstFixPTS := first }
          else
            { packetIdx := st.packetIdx + 1
              points := st.points ++ [⟨lat, lon, spd, crs, date, sec⟩]
              firstFixPTS := first
              lastNMEATime := nmeaTime
              lastKey := key }
    else { st with packetIdx := st.packetIdx + 1 }

/-- The packet loop of `main` (lines 96-166) as written: frame one packet, run
the body on it, repeat while the reader has two bytes or more. -/
def loop (A : Arch) (pts : List F64) (speed : F64) : Nat → List Nat → State → State
  | 0, _, st => st
  | fuel + 1, buf, st =>
    match readPacket buf with
    | none => st
    | some (payload, rest) => loop A pts speed fuel rest (step A pts speed st payload)

/-- The state after the packet loop on the raw stream `rawOut`. -/
def scan (A : Arch) (pts : List F64) (speed : F64) (rawOut : List Nat) : State :=
  loop A pts speed (rawOut.length / 2) rawOut State.init

/-- Line 180: `fmt.Sprintf("%sT%02d:%02d:%02dZ", p.date, h, m, s)`, Go's `/`
and `%` on `int` truncating toward zero. -/
def timeStr (p : Trackpoint) : Str :=
  let h := Int.tdiv p.sec 3600
  let m := Int.tdiv (Int.tmod p.sec 3600) 60
  let s := Int.tmod p.sec 60
  p.date ++ B "T" ++ fmtInt02 h ++ B ":" ++ fmtInt02 m ++ B ":" ++ fmtInt02 s ++ B "Z"

/-- Lines 182-185: one `<trkpt>` line. -/
def trkpt (p : Trackpoint) : Str :=
  B "      <trkpt lat=\"" ++ F64.fmtFixed 7 p.lat ++ B "\" lon=\"" ++ F64.fmtFixed 7 p.lon
    ++ B "\"><time>" ++ timeStr p ++ B "</time><speed>" ++ F64.fmtFixed 1 p.speed
    ++ B "</speed><course>" ++ F64.fmtFixed 1 p.course ++ B "</course></trkpt>\n"

/-- Lines 169-190: the GPX document. -/
def gpxDoc (baseName : Str) (points : List Trackpoint) : Str :=
  B "<?xml version=\"1.0\" encoding=\"UTF-8\"?>\n"
    ++ B "<gpx version=\"1.1\" xmlns=\"http://www.topografix.com/GPX/1/1\">\n"
    ++ B "  <trk>\n"
    ++ B "    <name>" ++ baseName ++ B "</name>\n"
    ++ B "    <trkseg>\n"
    ++ (points.map trkpt).flatten
    ++ B "    </trkseg>\n"
    ++ B "  </trk>\n"
    ++ B "</gpx>\n"

/-- What a successful run leaves behind: the content `os.WriteFile` wrote to
the GPX path (`none` when the run wrote no file) and the standard output. -/
structure Output where
  written : Option Str
  stdout : Str
  deriving DecidableEq, Repr

/-- Lines 197-202: the printed GPS offset. -/
def offsetLine (firstFixPTS speed : F64) : Str :=
  if F64.le F64.zero firstFixPTS then F64.fmtFixed 1 (F64.div firstFixPTS speed) ++ B "\n"
  else B "0\n"

/-- Source `main` from line 54 on, both external tools having succeeded: `pts`
is the parsed timestamp list, `rawOut` the subtitle stream, `speed` the
`-speed` flag and `baseName` the track name. -/
def run (A : Arch) (pts : List F64) (rawOut : List Nat) (speed : F64) (baseName : Str) : Output :=
  if pts.length = 0 then ⟨none, B "0\n"⟩
  else
    let st := scan A pts speed rawOut
    ⟨some (gpxDoc baseName st.points), offsetLine st.firstFixPTS speed⟩

/-- A payload behind its 2-byte big-endian length header. -/
def packet (payload : List Nat) : List Nat :=
  (payload.length / 256 % 256) :: (payload.length % 256) :: payload

/-- The state of `main` once the first `k` framed packets have gone through
the loop body. -/
def stateAfter (A : Arch) (pts : List F64) (speed : F64) (rawOut : List Nat) (k : Nat) : State :=
  ((frame rawOut).take k).foldl (step A pts speed) State.init

/-- The fields of the valid fix a payload carries (line 115), if it carries
one. -/
def fixFields (payload : List Nat) : Option (List Str) :=
  match findSubmatch payload with
  | none => none
  | some body => if validFix (splitOn 44 body) then some (splitOn 44 body) else none

/-- Lines 137-144 and 154-161: the Trackpoint the loop body builds from the
fields of a fix and the timestamp of its packet. -/
def pointOf (A : Arch) (speed : F64) (fields : List Str) (ptsVal : F64) : Trackpoint :=
  { lat := parseCoord (fields.getD 2 []) (fields.getD 3 [])
    lon := parseCoord (fields.getD 4 []) (fields.getD 5 [])
    speed := F64.mul (parseFloat (fields.getD 6 [])).1 kmhPerKnot
    course := (parseFloat (fields.getD 7 [])).1
    date := parseDate (fields.getD 8 [])
    sec := F64.toInt A (F64.floor (F64.div ptsVal speed)) }

/-- The dedup key of line 147 for a recorded point. -/
def Trackpoint.key (p : Trackpoint) : Str := formatKey p.lat p.lon p.speed p.course

/-- The float64 a decimal literal denotes. -/
def dec (s : String) : F64 := (parseFloat (B s)).1

/-- The text packet of the end-to-end example. -/
def captionPacket : List Nat := B "Hello, this is a plain caption"

/-- The fix packet of the end-to-end example. -/
def fixPacket : List Nat :=
  B "$GPRMC,123519,A,4807.038,N,01131.000,E,022.4,084.4,230394,003.1,W*6A"

/-- A later fix, one second and a few metres on. -/
def laterFixPacket : List Nat :=
  B "$GPRMC,123520,A,4807.048,N,01131.010,E,022.4,084.4,230394,003.1,W*6A"

/-- A sentence whose status is `V` (void). -/
def voidFixPacket : List Nat :=
  B "$GPRMC,123519,V,4807.038,N,01131.000,E,022.4,084.4,230394,003.1,W*6A"

/-- A valid fix whose UTC time field is empty. -/
def untimedFixPacket : List Nat :=
  B "$GPRMC,,A,4807.038,N,01131.000,E,022.4,084.4,230394,003.1,W*6A"

/-- A valid fix whose speed field is a number too large for a float64. -/
def hugeSpeedFixPacket : List Nat :=
  B "$GPRMC,123519,A,4807.038,N,01131.000,E,1e309,084.4,230394,003.1,W*6A"

/-- A valid fix with a fractional UTC time, `123519.00`. -/
def subsecondFixPacket : List Nat :=
  B "$GPRMC,123519.00,A,4807.038,N,01131.000,E,022.4,084.4,230394,003.1,W*6A"

/-- A valid fix half a second later, `123519.50`, at another position. -/
def laterSubsecondFixPacket : List Nat :=
  B "$GPRMC,123519.50,A,4807.048,N,01131.010,E,022.4,084.4,230394,003.1,W*6A"

/-- The raw stream of the end-to-end example: three framed packets. -/
def exampleStream : List Nat := packet captionPacket ++ packet fixPacket ++ packet fixPacket

/-- The timestamp list of the end-to-end example. -/
def examplePts : List F64 := [dec "0.0", dec "1.0", dec "2.0"]

/-- Reference for the time key: a UTC time field truncated at its first `.`,
that is, the bytes before the first `.`, or the whole field when it has none. -/
def beforeFirstDot (field0 : Str) : Str := field0.takeWhile (fun b => decide (b ≠ 46))

/-- What `strconv.ParseFloat` returns along with an error: zero (a syntax
error) or an infinity (a range error). -/
def ErrShape (r : F64 × Bool) : Prop :=
  r.2 = true → r.1 = F64.zero ∨ ∃ n, r.1 = F64.inf n

/-- Reference for the sentence extractor: `$GPRMC,` or `$GNRMC,` stands at
index `i` of the payload and a byte other than `;` and `*` follows it. -/
def sentenceAt (payload : List Nat) (i : Nat) : Prop :=
  ∃ t b rest, (t = 78 ∨ t = 80)
    ∧ payload.drop i = 36 :: 71 :: t :: 82 :: 77 :: 67 :: 44 :: b :: rest
    ∧ b ≠ 59 ∧ b ≠ 42

/-- What the loop keeps true of its variables: while no point is recorded the
first-fix timestamp and the last key are the initial ones; afterwards the last
key is the key of the last point; adjacent points differ in their keys. -/
def Inv (st : State) : Prop :=
  (st.points = [] → st.firstFixPTS = F64.ofInt (-1) ∧ st.lastKey = [])
  ∧ (∀ p, st.points.getLast? = some p → st.lastKey = p.key)
  ∧ List.Chain' (fun p q : Trackpoint => p.key ≠ q.key) st.points


/-! # Theorems -/

/-! ## The packet loop -/

theorem loop_eq_foldl (A : Arch) (pts : List F64) (speed : F64) :
    ∀ (fuel : Nat) (buf : List Nat) (st : State),
      loop A pts speed fuel buf st = (frameAux fuel buf).foldl (step A pts speed) st := by
  intro fuel
  induction fuel with
  | zero => intro buf st; rfl
  | succ n ih =>
    intro buf st
    simp only [loop, frameAux]
    cases h : readPacket buf with
    | none => rfl
    | some pr =>
      obtain ⟨payload, rest⟩ := pr
      simp only [List.foldl_cons]
      exact ih rest _

theorem scan_eq_foldl (A : Arch) (pts : List F64) (speed : F64) (rawOut : List Nat) :
    scan A pts speed rawOut = (frame rawOut).foldl (step A pts speed) State.init :=
  loop_eq_foldl A pts speed _ _ _

theorem stateAfter_of_length_le (A : Arch) (pts : List F64) (speed : F64) (rawOut : List Nat)
    (k : Nat) (h : (frame rawOut).length ≤ k) :
    stateAfter A pts speed rawOut k = scan A pts speed rawOut := by
  rw [scan_eq_foldl, stateAfter, List.take_of_length_le h]

theorem stateAfter_succ (A : Arch) (pts : List F64) (speed : F64) (rawOut : List Nat)
    (k : Nat) (h : k < (frame rawOut).length) :
    stateAfter A pts speed rawOut (k + 1)
      = step A pts speed (stateAfter A pts speed rawOut k) ((frame rawOut).get ⟨k, h⟩) := by
  unfold stateAfter
  rw [List.take_succ, List.foldl_append]
  simp [List.getElem?_eq_getElem h]


theorem fixFields_eq_some {payload : List Nat} {fields : List Str}
    (h : fixFields payload = some fields) :
    ∃ body, findSubmatch payload = some body ∧ validFix (splitOn 44 body) = true
      ∧ fields = splitOn 44 body := by
  unfold fixFields at h
  cases hm : findSubmatch payload with
  | none => simp [hm] at h
  | some body =>
    simp only [hm] at h
    by_cases hv : validFix (splitOn 44 body) = true
    · simp only [hv, if_true, Option.some.injEq] at h
      exact ⟨body, rfl, hv, h.symm⟩
    · simp [hv] at h

theorem step_of_noFix (A : Arch) (pts : List F64) (speed : F64) (st : State)
    {payload : List Nat} (h : fixFields payload = none) :
    step A pts speed st payload = { st with packetIdx := st.packetIdx + 1 } := by
  unfold fixFields at h
  unfold step
  cases hm : findSubmatch payload with
  | none => rfl
  | some body =>
    simp only [hm] at h ⊢
    by_cases hv : validFix (splitOn 44 body) = true
    · simp [hv] at h
    · simp [hv]

theorem step_of_exhausted (A : Arch) (pts : List F64) (speed : F64) (st : State)
    {payload : List Nat} {fields : List Str} (h : fixFields payload = some fields)
    (hk : pts.length ≤ st.packetIdx) :
    step A pts speed st payload = { st with packetIdx := st.packetIdx + 1 } := by
  obtain ⟨body, hm, hv, rfl⟩ := fixFields_eq_some h
  unfold step
  simp only [hm, hv, if_true]
  rw [dif_pos (show st.packetIdx ≥ pts.length from hk)]

theorem step_of_sameTime (A : Arch) (pts : List F64) (speed : F64) (st : State)
    {payload : List Nat} {fields : List Str} (h : fixFields payload = some fields)
    (hk : st.packetIdx < pts.length) (ht : nmeaKey (fields.getD 0 []) = st.lastNMEATime) :
    step A pts speed st payload = { st with packetIdx := st.packetIdx + 1 } := by
  obtain ⟨body, hm, hv, rfl⟩ := fixFields_eq_some h
  unfold step
  simp only [hm, hv, if_true]
  rw [dif_neg (show ¬ st.packetIdx ≥ pts.length from Nat.not_le.mpr hk)]
  simp only [ht, if_true]

theorem step_of_sameKey (A : Arch) (pts : List F64) (speed : F64) (st : State)
    {payload : List Nat} {fields : List Str} (h : fixFields payload = some fields)
    (hk : st.packetIdx < pts.length) (ht : nmeaKey (fields.getD 0 []) ≠ st.lastNMEATime)
    (hkey : (pointOf A speed fields (pts.get ⟨st.packetIdx, hk⟩)).key = st.lastKey) :
    step A pts speed st payload =
      { st with packetIdx := st.packetIdx + 1
                lastNMEATime := nmeaKey (fields.getD 0 [])
                firstFixPTS := if F64.lt st.firstFixPTS F64.zero then pts.get ⟨st.packetIdx, hk⟩
                               else st.firstFixPTS } := by
  obtain ⟨body, hm, hv, rfl⟩ := fixFields_eq_some h
  unfold step
  simp only [hm, hv, if_true]
  rw [dif_neg (show ¬ st.packetIdx ≥ pts.length from Nat.not_le.mpr hk)]
  simp only [ht, if_false]
  have hkey' : formatKey (parseCoord ((splitOn 44 body).getD 2 []) ((splitOn 44 body).getD 3 []))
      (parseCoord ((splitOn 44 body).getD 4 []) ((splitOn 44 body).getD 5 []))
      (F64.mul (parseFloat ((splitOn 44 body).getD 6 [])).1 kmhPerKnot)
      (parseFloat ((splitOn 44 body).getD 7 [])).1 = st.lastKey := hkey
  simp only [hkey', if_true]

theorem step_of_new (A : Arch) (pts : List F64) (speed : F64) (st : State)
    {payload : List Nat} {fields : List Str} (h : fixFields payload = some fields)
    (hk : st.packetIdx < pts.length) (ht : nmeaKey (fields.getD 0 []) ≠ st.lastNMEATime)
    (hkey : (pointOf A speed fields (pts.get ⟨st.packetIdx, hk⟩)).key ≠ st.lastKey) :
    step A pts speed st payload =
      { packetIdx := st.packetIdx + 1
        points := st.points ++ [pointOf A speed fields (pts.get ⟨st.packetIdx, hk⟩)]
        firstFixPTS := if F64.lt st.firstFixPTS F64.zero then pts.get ⟨st.packetIdx, hk⟩
                       else st.firstFixPTS
        lastNMEATime := nmeaKey (fields.getD 0 [])
        lastKey := (pointOf A speed fields (pts.get ⟨st.packetIdx, hk⟩)).key } := by
  obtain ⟨body, hm, hv, rfl⟩ := fixFields_eq_some h
  unfold step
  simp only [hm, hv, if_true]
  rw [dif_neg (show ¬ st.packetIdx ≥ pts.length from Nat.not_le.mpr hk)]
  simp only [ht, if_false]
  have hkey' : formatKey (parseCoord ((splitOn 44 body).getD 2 []) ((splitOn 44 body).getD 3 []))
      (parseCoord ((splitOn 44 body).getD 4 []) ((splitOn 44 body).getD 5 []))
      (F64.mul (parseFloat ((splitOn 44 body).getD 6 [])).1 kmhPerKnot)
      (parseFloat ((splitOn 44 body).getD 7 [])).1 ≠ st.lastKey := hkey
  simp only [hkey', if_false]
  rfl

theorem step_cases (A : Arch) (pts : List F64) (speed : F64) (st : State) (payload : List Nat) :
    step A pts speed st payload = { st with packetIdx := st.packetIdx + 1 }
    ∨ ∃ fields, ∃ hk : st.packetIdx < pts.length,
        fixFields payload = some fields
        ∧ nmeaKey (fields.getD 0 []) ≠ st.lastNMEATime
        ∧ (((pointOf A speed fields (pts.get ⟨st.packetIdx, hk⟩)).key = st.lastKey
            ∧ step A pts speed st payload =
              { st with packetIdx := st.packetIdx + 1
                        lastNMEATime := nmeaKey (fields.getD 0 [])
                        firstFixPTS := if F64.lt st.firstFixPTS F64.zero
                                       then pts.get ⟨st.packetIdx, hk⟩ else st.firstFixPTS })
          ∨ ((pointOf A speed fields (pts.get ⟨st.packetIdx, hk⟩)).key ≠ st.lastKey
            ∧ step A pts speed st payload =
              { packetIdx := st.packetIdx + 1
                points := st.points ++ [pointOf A speed fields (pts.get ⟨st.packetIdx, hk⟩)]
                firstFixPTS := if F64.lt st.firstFixPTS F64.zero
                               then pts.get ⟨st.packetIdx, hk⟩ else st.firstFixPTS
                lastNMEATime := nmeaKey (fields.getD 0 [])
                lastKey := (pointOf A speed fields (pts.get ⟨st.packetIdx, hk⟩)).key })) := by
  cases hf : fixFields payload with
  | none => exact Or.inl (step_of_noFix A pts speed st hf)
  | some fields =>
    by_cases hk : st.packetIdx < pts.length
    · by_cases ht : nmeaKey (fields.getD 0 []) = st.lastNMEATime
      · exact Or.inl (step_of_sameTime A pts speed st hf hk ht)
      · refine Or.inr ⟨fields, hk, rfl, ht, ?_⟩
        by_cases hkey : (pointOf A speed fields (pts.get ⟨st.packetIdx, hk⟩)).key = st.lastKey
        · exact Or.inl ⟨hkey, step_of_sameKey A pts speed st hf hk ht hkey⟩
        · exact Or.inr ⟨hkey, step_of_new A pts speed st hf hk ht hkey⟩
    · exact Or.inl (step_of_exhausted A pts speed st hf (Nat.not_lt.mp hk))

theorem step_packetIdx (A : Arch) (pts : List F64) (speed : F64) (st : State) (payload : List Nat) :
    (step A pts speed st payload).packetIdx = st.packetIdx + 1 := by
  rcases step_cases A pts speed st payload with h | ⟨f, hk, _, _, ⟨_, h⟩ | ⟨_, h⟩⟩ <;> rw [h]

theorem foldl_step_packetIdx (A : Arch) (pts : List F64) (speed : F64) :
    ∀ (l : List (List Nat)) (st : State),
      (l.foldl (step A pts speed) st).packetIdx = st.packetIdx + l.length := by
  intro l
  induction l with
  | nil => intro st; rfl
  | cons p l ih =>
    intro st
    rw [List.foldl_cons, ih, step_packetIdx, List.length_cons]
    omega

theorem stateAfter_packetIdx (A : Arch) (pts : List F64) (speed : F64) (rawOut : List Nat)
    (k : Nat) (h : k ≤ (frame rawOut).length) :
    (stateAfter A pts speed rawOut k).packetIdx = k := by
  unfold stateAfter
  rw [foldl_step_packetIdx, List.length_take, Nat.min_eq_left h]
  simp [State.init]

theorem formatKey_ne_nil (lat lon spd crs : F64) : formatKey lat lon spd crs ≠ [] := by
  unfold formatKey
  intro h
  have := congrArg List.length h
  simp at this

theorem inv_init : Inv State.init := by
  refine ⟨fun _ => ⟨rfl, rfl⟩, ?_, ?_⟩
  · intro p hp; simp [State.init] at hp
  · simp [State.init]

theorem inv_step (A : Arch) (pts : List F64) (speed : F64) (st : State) (payload : List Nat)
    (hI : Inv st) : Inv (step A pts speed st payload) := by
  obtain ⟨h1, h2, h3⟩ := hI
  rcases step_cases A pts speed st payload with h | ⟨f, hk, _, _, ⟨hkey, h⟩ | ⟨hkey, h⟩⟩
  · rw [h]; exact ⟨h1, h2, h3⟩
  · rw [h]
    refine ⟨?_, h2, h3⟩
    intro hp
    have := (h1 hp).2
    rw [this] at hkey
    exact absurd hkey (formatKey_ne_nil _ _ _ _)
  · rw [h]
    refine ⟨?_, ?_, ?_⟩
    · intro hp; simp at hp
    · intro p hp
      rw [List.getLast?_append, List.getLast?_singleton] at hp
      have hp' : pointOf A speed f (pts.get ⟨st.packetIdx, hk⟩) = p := by
        simpa [Option.or] using hp
      rw [← hp']
    · rw [List.chain'_append]
      refine ⟨h3, List.chain'_singleton _, ?_⟩
      intro x hx y hy
      simp only [List.head?_cons, Option.mem_def, Option.some.injEq] at hy
      subst hy
      have := h2 x hx
      rw [← this]
      exact fun e => hkey e.symm

theorem inv_foldl (A : Arch) (pts : List F64) (speed : F64) :
    ∀ (l : List (List Nat)) (st : State), Inv st → Inv (l.foldl (step A pts speed) st) := by
  intro l
  induction l with
  | nil => intro st h; exact h
  | cons p l ih => intro st h; exact ih _ (inv_step A pts speed st p h)

theorem inv_scan (A : Arch) (pts : List F64) (speed : F64) (rawOut : List Nat) :
    Inv (scan A pts speed rawOut) := by
  rw [scan_eq_foldl]; exact inv_foldl A pts speed _ _ inv_init

theorem inv_stateAfter (A : Arch) (pts : List F64) (speed : F64) (rawOut : List Nat) (k : Nat) :
    Inv (stateAfter A pts speed rawOut k) :=
  inv_foldl A pts speed _ _ inv_init

theorem F64.lt_zero_eq_false_of_le (x : F64) (h : F64.le F64.zero x = true) :
    F64.lt x F64.zero = false := by
  cases x with
  | nan => rfl
  | inf s =>
    cases s
    · rfl
    · simp [F64.le, F64.zero] at h
  | fin s m e =>
    simp only [F64.le, F64.zero, decide_eq_true_eq] at h
    simp only [F64.lt, F64.zero, decide_eq_false_iff_not, not_lt]
    rw [min_comm]
    exact h

theorem step_firstFixPTS_of_nonneg (A : Arch) (pts : List F64) (speed : F64) (st : State)
    (payload : List Nat) (h : F64.le F64.zero st.firstFixPTS = true) :
    (step A pts speed st payload).firstFixPTS = st.firstFixPTS := by
  have hlt := F64.lt_zero_eq_false_of_le _ h
  rcases step_cases A pts speed st payload with h' | ⟨f, hk, _, _, ⟨_, h'⟩ | ⟨_, h'⟩⟩ <;>
    rw [h'] <;> simp [hlt]

theorem foldl_firstFixPTS_of_nonneg (A : Arch) (pts : List F64) (speed : F64) :
    ∀ (l : List (List Nat)) (st : State), F64.le F64.zero st.firstFixPTS = true →
      (l.foldl (step A pts speed) st).firstFixPTS = st.firstFixPTS := by
  intro l
  induction l with
  | nil => intro st _; rfl
  | cons p l ih =>
    intro st h
    have hs := step_firstFixPTS_of_nonneg A pts speed st p h
    rw [List.foldl_cons, ih _ (by rw [hs]; exact h), hs]

theorem scan_eq_foldl_drop (A : Arch) (pts : List F64) (speed : F64) (rawOut : List Nat) (k : Nat) :
    scan A pts speed rawOut
      = ((frame rawOut).drop k).foldl (step A pts speed) (stateAfter A pts speed rawOut k) := by
  rw [scan_eq_foldl, stateAfter, ← List.foldl_append, List.take_append_drop]

theorem scan_points_nil_firstFixPTS (A : Arch) (pts : List F64) (speed : F64) (rawOut : List Nat)
    (h : (scan A pts speed rawOut).points = []) :
    (scan A pts speed rawOut).firstFixPTS = F64.ofInt (-1) :=
  ((inv_scan A pts speed rawOut).1 h).1

set_option exponentiation.threshold 2000 in
theorem F64.le_zero_negOne : F64.le F64.zero (F64.ofInt (-1)) = false := by decide

set_option exponentiation.threshold 2000 in
theorem F64.lt_negOne_zero : F64.lt (F64.ofInt (-1)) F64.zero = true := by decide

theorem offsetLine_unset (speed : F64) : offsetLine (F64.ofInt (-1)) speed = B "0\n" := by
  simp [offsetLine, F64.le_zero_negOne]

/-- The first point is appended by packet `k`: what the state is afterwards. -/
theorem first_point_step (A : Arch) (pts : List F64) (speed : F64) (rawOut : List Nat) (k : Nat)
    (h0 : (stateAfter A pts speed rawOut k).points = [])
    (h1 : (stateAfter A pts speed rawOut (k + 1)).points ≠ []) :
    ∃ t, pts[k]? = some t ∧ (stateAfter A pts speed rawOut (k + 1)).firstFixPTS = t := by
  by_cases hk : k < (frame rawOut).length
  · have hidx := stateAfter_packetIdx A pts speed rawOut k (Nat.le_of_lt hk)
    have hinv := (inv_stateAfter A pts speed rawOut k).1 h0
    rw [stateAfter_succ A pts speed rawOut k hk] at h1 ⊢
    rcases step_cases A pts speed (stateAfter A pts speed rawOut k) ((frame rawOut).get ⟨k, hk⟩)
      with h | ⟨f, hp, _, _, ⟨_, h⟩ | ⟨_, h⟩⟩
    · rw [h] at h1; exact absurd h0 h1
    · rw [h] at h1; exact absurd h0 h1
    · refine ⟨pts.get ⟨(stateAfter A pts speed rawOut k).packetIdx, hp⟩, ?_, ?_⟩
      · simp only [hidx, List.get_eq_getElem]
        exact List.getElem?_eq_getElem (hidx ▸ hp)
      · rw [h, hinv.1]
        simp [F64.lt_negOne_zero]
  · have hle := Nat.not_lt.mp hk
    rw [stateAfter_of_length_le A pts speed rawOut (k + 1) (Nat.le_succ_of_le hle),
      ← stateAfter_of_length_le A pts speed rawOut k hle] at h1
    exact absurd h0 h1

/-! ## Offset and output file (C3, C4) -/

theorem stdout_of_points_nil (A : Arch) (pts : List F64) (rawOut : List Nat) (speed : F64)
    (baseName : Str) (h : (scan A pts speed rawOut).points = []) :
    (run A pts rawOut speed baseName).stdout = B "0\n" := by
  unfold run
  by_cases hl : pts.length = 0
  · simp [hl]
  · simp only [hl, if_false, scan_points_nil_firstFixPTS A pts speed rawOut h, offsetLine_unset]

set_option maxRecDepth 100000 in
set_option exponentiation.threshold 2000 in
/-- C3, as stated, fails: with the one timestamp `0.0` and an empty raw stream
no fix is accepted, yet the run writes the output file (a document with an
empty track segment). -/
theorem c3_file_written_without_fix :
    (scan amd64 [dec "0.0"] (dec "1") []).points = []
    ∧ (run amd64 [dec "0.0"] [] (dec "1") (B "video")).written = some (gpxDoc (B "video") [])
    ∧ (run amd64 [dec "0.0"] [] (dec "1") (B "video")).written ≠ none := by
  decide

/-- C3, amended. For every input for which no fix is accepted as a Trackpoint
the printed offset is exactly `0`; the output file is left unwritten only when
the timestamp list is empty, and with a non-empty list the run writes the
document with an empty track segment. -/
theorem c3_no_fix_output (A : Arch) (pts : List F64) (rawOut : List Nat) (speed : F64)
    (baseName : Str) (h : (scan A pts speed rawOut).points = []) :
    (run A pts rawOut speed baseName).stdout = B "0\n"
    ∧ (run A pts rawOut speed baseName).written
        = if pts = [] then none else some (gpxDoc baseName []) := by
  unfold run
  by_cases hp : pts = []
  · subst hp; simp
  · have hl : pts.length ≠ 0 := fun e => hp (List.length_eq_zero.mp e)
    simp only [hl, if_false, hp, h, scan_points_nil_firstFixPTS A pts speed rawOut h,
      offsetLine_unset, and_self]

set_option maxRecDepth 100000 in
set_option exponentiation.threshold 2000 in
/-- C3 at a concrete input: one timestamp and a stream of one caption packet. -/
theorem c3_no_fix_output_witness :
    (scan amd64 [dec "0.0"] (dec "1") (packet captionPacket)).points = []
    ∧ (run amd64 [dec "0.0"] (packet captionPacket) (dec "1") (B "video")).stdout = B "0\n"
    ∧ (run amd64 [dec "0.0"] (packet captionPacket) (dec "1") (B "video")).written
        = if [dec "0.0"] = [] then none else some (gpxDoc (B "video") []) :=
  ⟨by decide, c3_no_fix_output amd64 _ _ _ _ (by decide)⟩

set_option maxRecDepth 100000 in
set_option exponentiation.threshold 2000 in
/-- C4, as stated, fails: with the one timestamp `-1.0`, speed factor 1 and a
stream of one fix packet, packet 0 yields the first Trackpoint, `pts[0] / 1`
prints as `-1.0`, and the run reports `0`. -/
theorem c4_negative_first_timestamp :
    F64.lt F64.zero (dec "1") = true
    ∧ (stateAfter amd64 [dec "-1.0"] (dec "1") (packet fixPacket) 0).points = []
    ∧ (stateAfter amd64 [dec "-1.0"] (dec "1") (packet fixPacket) 1).points.length = 1
    ∧ F64.fmtFixed 1 (F64.div (dec "-1.0") (dec "1")) = B "-1.0"
    ∧ (run amd64 [dec "-1.0"] (packet fixPacket) (dec "1") (B "video")).stdout = B "0\n" := by
  decide

set_option maxRecDepth 100000 in
set_option exponentiation.threshold 2000 in
/-- C4, amended. If no Trackpoint is produced the reported offset is `0`.  If
the first Trackpoint is appended by packet `k` and `pts[k]` is not negative
(`pts[k] >= 0`), the first-fix timestamp is `pts[k]` and the reported offset is
`pts[k] / speedFactor` to one decimal; a first fix at timestamp 12.3 with speed
factor 3 reports `4.1`. -/
theorem c4_offset (A : Arch) (pts : List F64) (rawOut : List Nat) (speed : F64) (baseName : Str) :
    ((scan A pts speed rawOut).points = [] → (run A pts rawOut speed baseName).stdout = B "0\n")
    ∧ (∀ k, (stateAfter A pts speed rawOut k).points = [] →
        (stateAfter A pts speed rawOut (k + 1)).points ≠ [] →
        ∃ t, pts[k]? = some t
          ∧ (F64.le F64.zero t = true →
              (scan A pts speed rawOut).firstFixPTS = t
              ∧ (run A pts rawOut speed baseName).stdout
                  = F64.fmtFixed 1 (F64.div t speed) ++ B "\n"))
    ∧ (run A [dec "12.3"] (packet fixPacket) (dec "3") baseName).stdout = B "4.1\n" := by
  refine ⟨fun h => stdout_of_points_nil A pts rawOut speed baseName h, ?_, rfl⟩
  intro k h0 h1
  obtain ⟨t, ht, hfirst⟩ := first_point_step A pts speed rawOut k h0 h1
  refine ⟨t, ht, fun hnn => ?_⟩
  have hscan : (scan A pts speed rawOut).firstFixPTS = t := by
    rw [scan_eq_foldl_drop A pts speed rawOut (k + 1),
      foldl_firstFixPTS_of_nonneg A pts speed _ _ (by rw [hfirst]; exact hnn), hfirst]
  refine ⟨hscan, ?_⟩
  have hl : pts.length ≠ 0 := by
    intro e
    rw [List.length_eq_zero.mp e] at ht
    simp at ht
  unfold run
  simp only [hl, if_false, hscan, offsetLine, hnn, if_true]

/-! ## Deduplication by formatted key (C8) -/

/-- C8. No two adjacent Trackpoints of the output sequence have the same
formatted dedup key (latitude and longitude to 7 decimals, speed and course to
1 decimal), for every input. -/
theorem c8_adjacent_keys_differ (A : Arch) (pts : List F64) (rawOut : List Nat) (speed : F64) :
    List.Chain' (fun p q : Trackpoint => p.key ≠ q.key) (scan A pts speed rawOut).points :=
  (inv_scan A pts speed rawOut).2.2

/-! ## Packet index and timestamps -/

theorem step_points_cases (A : Arch) (pts : List F64) (speed : F64) (st : State)
    (payload : List Nat) :
    (step A pts speed st payload).points = st.points
    ∨ ∃ t tp, pts[st.packetIdx]? = some t
        ∧ (step A pts speed st payload).points = st.points ++ [tp]
        ∧ tp.sec = F64.toInt A (F64.floor (F64.div t speed)) := by
  rcases step_cases A pts speed st payload with h | ⟨f, hk, _, _, ⟨_, h⟩ | ⟨_, h⟩⟩
  · exact Or.inl (by rw [h])
  · exact Or.inl (by rw [h])
  · refine Or.inr ⟨pts.get ⟨st.packetIdx, hk⟩, pointOf A speed f (pts.get ⟨st.packetIdx, hk⟩),
      ?_, by rw [h], rfl⟩
    simp only [List.get_eq_getElem]
    exact List.getElem?_eq_getElem hk

theorem stateAfter_succ_of_length_le (A : Arch) (pts : List F64) (speed : F64)
    (rawOut : List Nat) (k : Nat) (h : (frame rawOut).length ≤ k) :
    stateAfter A pts speed rawOut (k + 1) = stateAfter A pts speed rawOut k := by
  rw [stateAfter_of_length_le A pts speed rawOut (k + 1) (Nat.le_succ_of_le h),
    stateAfter_of_length_le A pts speed rawOut k h]

/-- Each packet leaves the points alone or appends one, read at its own index. -/
theorem stateAfter_points_cases (A : Arch) (pts : List F64) (speed : F64) (rawOut : List Nat)
    (k : Nat) :
    (stateAfter A pts speed rawOut (k + 1)).points = (stateAfter A pts speed rawOut k).points
    ∨ (k < (frame rawOut).length ∧ ∃ t tp, pts[k]? = some t
        ∧ (stateAfter A pts speed rawOut (k + 1)).points
            = (stateAfter A pts speed rawOut k).points ++ [tp]
        ∧ tp.sec = F64.toInt A (F64.floor (F64.div t speed))) := by
  by_cases hk : k < (frame rawOut).length
  · have hidx := stateAfter_packetIdx A pts speed rawOut k (Nat.le_of_lt hk)
    rw [stateAfter_succ A pts speed rawOut k hk]
    rcases step_points_cases A pts speed (stateAfter A pts speed rawOut k)
      ((frame rawOut).get ⟨k, hk⟩) with h | ⟨t, tp, ht, h, hs⟩
    · exact Or.inl h
    · rw [hidx] at ht
      exact Or.inr ⟨hk, t, tp, ht, h, hs⟩
  · exact Or.inl (by rw [stateAfter_succ_of_length_le A pts speed rawOut k (Nat.not_lt.mp hk)])

theorem mem_stateAfter_points (A : Arch) (pts : List F64) (speed : F64) (rawOut : List Nat) :
    ∀ (n : Nat) (tp : Trackpoint), tp ∈ (stateAfter A pts speed rawOut n).points →
      ∃ k t, k < (frame rawOut).length ∧ pts[k]? = some t
        ∧ (stateAfter A pts speed rawOut (k + 1)).points
            = (stateAfter A pts speed rawOut k).points ++ [tp]
        ∧ tp.sec = F64.toInt A (F64.floor (F64.div t speed)) := by
  intro n
  induction n with
  | zero => intro tp h; simp [stateAfter, State.init] at h
  | succ n ih =>
    intro tp h
    rcases stateAfter_points_cases A pts speed rawOut n with e | ⟨hk, t, tp', ht, e, hs⟩
    · rw [e] at h; exact ih tp h
    · rw [e, List.mem_append, List.mem_singleton] at h
      rcases h with h | h
      · exact ih tp h
      · subst h; exact ⟨n, t, hk, ht, e, hs⟩

/-! ## Deduplication by NMEA time (C7) -/

theorem step_lastNMEATime_of_fix (A : Arch) (pts : List F64) (speed : F64) (st : State)
    {payload : List Nat} {fields : List Str} (h : fixFields payload = some fields)
    (hk : st.packetIdx < pts.length) :
    (step A pts speed st payload).lastNMEATime = nmeaKey (fields.getD 0 []) := by
  by_cases ht : nmeaKey (fields.getD 0 []) = st.lastNMEATime
  · rw [step_of_sameTime A pts speed st h hk ht, ht]
  · by_cases hkey : (pointOf A speed fields (pts.get ⟨st.packetIdx, hk⟩)).key = st.lastKey
    · rw [step_of_sameKey A pts speed st h hk ht hkey]
    · rw [step_of_new A pts speed st h hk ht hkey]

theorem step_points_of_fix_sameTime (A : Arch) (pts : List F64) (speed : F64) (st : State)
    {payload : List Nat} {fields : List Str} (h : fixFields payload = some fields)
    (ht : nmeaKey (fields.getD 0 []) = st.lastNMEATime) :
    (step A pts speed st payload).points = st.points := by
  by_cases hk : st.packetIdx < pts.length
  · rw [step_of_sameTime A pts speed st h hk ht]
  · rw [step_of_exhausted A pts speed st h (Nat.not_lt.mp hk)]

/-- Packets without a valid fix between `i` and `j` keep the last NMEA time. -/
theorem lastNMEATime_between (A : Arch) (pts : List F64) (speed : F64) (rawOut : List Nat)
    (i : Nat) :
    ∀ d, (hd : i + 1 + d ≤ (frame rawOut).length) →
      (∀ m, (hm : m < (frame rawOut).length) → i < m → m < i + 1 + d →
        fixFields ((frame rawOut).get ⟨m, hm⟩) = none) →
      (stateAfter A pts speed rawOut (i + 1 + d)).lastNMEATime
        = (stateAfter A pts speed rawOut (i + 1)).lastNMEATime := by
  intro d
  induction d with
  | zero => intro _ _; rfl
  | succ d ih =>
    intro hd hnone
    have hlt : i + 1 + d < (frame rawOut).length := by omega
    have e : i + 1 + (d + 1) = (i + 1 + d) + 1 := by omega
    rw [e, stateAfter_succ A pts speed rawOut _ hlt,
      step_of_noFix A pts speed _ (hnone (i + 1 + d) hlt (by omega) (by omega))]
    exact ih (by omega) (fun m hm h1 h2 => hnone m hm h1 (by omega))

theorem nmeaKey_eq_beforeFirstDot (field0 : Str) : nmeaKey field0 = beforeFirstDot field0 := by
  induction field0 with
  | nil => rfl
  | cons b rest ih =>
    unfold nmeaKey beforeFirstDot at *
    simp only [indexByte]
    by_cases hb : b = 46
    · simp [hb]
    · rw [List.takeWhile_cons]
      simp only [hb, if_false, ne_eq, not_false_eq_true, decide_True, if_true]
      by_cases hr : indexByte 46 rest < 0
      · have hr' : ¬ indexByte 46 rest ≥ 0 := by omega
        simp only [hr, if_true] at ih ⊢
        rw [if_neg hr'] at ih
        rw [if_neg (by omega), ← ih]
      · have hr' : indexByte 46 rest ≥ 0 := by omega
        simp only [hr, if_false] at ih ⊢
        rw [if_pos hr'] at ih
        have h2 : (indexByte 46 rest + 1).toNat = (indexByte 46 rest).toNat + 1 := by omega
        rw [if_pos (by omega), h2, List.take_succ_cons, ih]

/-- C7. Two valid fixes (at least 9 fields, status `A`) at packets `i < j`,
with no valid fix in a packet between them and UTC time fields whose bytes
before the first `.` are the same (same second, whatever the fractions): the
second one is discarded, its packet only advances the cursor and appends no
Trackpoint, so at most one of the two produces a Trackpoint. -/
theorem c7_same_second_discarded (A : Arch) (pts : List F64) (rawOut : List Nat) (speed : F64)
    (i j : Nat) (fi fj : List Str) (hij : i < j) (hj : j < (frame rawOut).length)
    (hfi : fixFields ((frame rawOut).get ⟨i, Nat.lt_trans hij hj⟩) = some fi)
    (hfj : fixFields ((frame rawOut).get ⟨j, hj⟩) = some fj)
    (hbetween : ∀ m, (hm : m < (frame rawOut).length) → i < m → m < j →
      fixFields ((frame rawOut).get ⟨m, hm⟩) = none)
    (htime : beforeFirstDot (fi.getD 0 []) = beforeFirstDot (fj.getD 0 [])) :
    stateAfter A pts speed rawOut (j + 1)
        = { stateAfter A pts speed rawOut j with
            packetIdx := (stateAfter A pts speed rawOut j).packetIdx + 1 }
    ∧ (stateAfter A pts speed rawOut (j + 1)).points
        = (stateAfter A pts speed rawOut j).points := by
  have hi : i < (frame rawOut).length := Nat.lt_trans hij hj
  have hjidx := stateAfter_packetIdx A pts speed rawOut j (Nat.le_of_lt hj)
  have hstep : stateAfter A pts speed rawOut (j + 1)
      = { stateAfter A pts speed rawOut j with
          packetIdx := (stateAfter A pts speed rawOut j).packetIdx + 1 } := by
    rw [stateAfter_succ A pts speed rawOut j hj]
    by_cases hip : i < pts.length
    · by_cases hjp : (stateAfter A pts speed rawOut j).packetIdx < pts.length
      · apply step_of_sameTime A pts speed _ hfj hjp
        obtain ⟨d, rfl⟩ : ∃ d, j = i + 1 + d := ⟨j - (i + 1), by omega⟩
        rw [lastNMEATime_between A pts speed rawOut i d (by omega) hbetween,
          stateAfter_succ A pts speed rawOut i hi,
          step_lastNMEATime_of_fix A pts speed _ hfi
            (by rw [stateAfter_packetIdx A pts speed rawOut i (Nat.le_of_lt hi)]; exact hip),
          nmeaKey_eq_beforeFirstDot, nmeaKey_eq_beforeFirstDot]
        exact htime.symm
      · exact step_of_exhausted A pts speed _ hfj (Nat.not_lt.mp hjp)
    · exact step_of_exhausted A pts speed _ hfj (by rw [hjidx]; omega)
  exact ⟨hstep, by rw [hstep]⟩

set_option maxRecDepth 100000 in
set_option exponentiation.threshold 2000 in
/-- C7 at a concrete input: a fix at `123519.00`, a caption, and a fix at
`123519.50` at another position.  The two time fields differ and agree before
the `.`; the first fix is recorded and the second is not, although on its own
(behind two captions) the second fix is recorded. -/
theorem c7_same_second_discarded_witness :
    B "123519.00" ≠ B "123519.50"
    ∧ beforeFirstDot (B "123519.00") = B "123519"
    ∧ beforeFirstDot (B "123519.50") = B "123519"
    ∧ (stateAfter amd64 examplePts (dec "1")
        (packet subsecondFixPacket ++ packet captionPacket ++ packet laterSubsecondFixPacket)
        1).points.length = 1
    ∧ (scan amd64 examplePts (dec "1")
        (packet captionPacket ++ packet captionPacket ++ packet laterSubsecondFixPacket)
        ).points.length = 1
    ∧ (stateAfter amd64 examplePts (dec "1")
        (packet subsecondFixPacket ++ packet captionPacket ++ packet laterSubsecondFixPacket) 3
        = { stateAfter amd64 examplePts (dec "1")
              (packet subsecondFixPacket ++ packet captionPacket
                ++ packet laterSubsecondFixPacket) 2 with
            packetIdx := (stateAfter amd64 examplePts (dec "1")
              (packet subsecondFixPacket ++ packet captionPacket
                ++ packet laterSubsecondFixPacket) 2).packetIdx + 1 }
      ∧ (stateAfter amd64 examplePts (dec "1")
          (packet subsecondFixPacket ++ packet captionPacket ++ packet laterSubsecondFixPacket)
          3).points
        = (stateAfter amd64 examplePts (dec "1")
          (packet subsecondFixPacket ++ packet captionPacket ++ packet laterSubsecondFixPacket)
          2).points) :=
  ⟨by decide, by decide, by decide, by decide, by decide,
    c7_same_second_discarded amd64 examplePts
      (packet subsecondFixPacket ++ packet captionPacket ++ packet laterSubsecondFixPacket)
      (dec "1") 0 2
      (splitOn 44 (B "123519.00,A,4807.038,N,01131.000,E,022.4,084.4,230394,003.1,W"))
      (splitOn 44 (B "123519.50,A,4807.048,N,01131.010,E,022.4,084.4,230394,003.1,W"))
      (by decide) (by decide) (by decide) (by decide)
      (fun m hm h1 h2 => by
        have hm1 : m = 1 := by omega
        subst hm1
        rfl)
      (by decide)⟩

/-! ## Framing (C9) -/

theorem readPacket_length {buf payload rest : List Nat}
    (h : readPacket buf = some (payload, rest)) : rest.length + 2 ≤ buf.length := by
  match buf, h with
  | b0 :: b1 :: r, h =>
    simp only [readPacket] at h
    split at h
    · exact Option.noConfusion h
    · split at h
      · exact Option.noConfusion h
      · simp only [Option.some.injEq, Prod.mk.injEq] at h
        rw [← h.2]
        simp only [List.length_drop, List.length_cons]
        omega

theorem frameAux_succ (fuel : Nat) :
    ∀ buf : List Nat, buf.length / 2 ≤ fuel → frameAux (fuel + 1) buf = frameAux fuel buf := by
  induction fuel with
  | zero =>
    intro buf h
    have hl : buf.length < 2 := by omega
    match buf, hl with
    | [], _ => rfl
    | [_], _ => rfl
  | succ n ih =>
    intro buf h
    rw [frameAux, frameAux]
    cases hr : readPacket buf with
    | none => rfl
    | some pr =>
      obtain ⟨payload, rest⟩ := pr
      have := readPacket_length hr
      simp only
      rw [ih rest (by omega)]

theorem frameAux_eq_frame (fuel : Nat) :
    ∀ buf : List Nat, buf.length / 2 ≤ fuel → frameAux fuel buf = frame buf := by
  induction fuel with
  | zero => intro buf h; unfold frame; rw [Nat.le_zero.mp h]
  | succ n ih =>
    intro buf h
    by_cases h' : buf.length / 2 ≤ n
    · rw [frameAux_succ n buf h', ih buf h']
    · have : buf.length / 2 = n + 1 := by omega
      unfold frame; rw [this]

/-- The framing loop, one round at a time. -/
theorem frame_eq (buf : List Nat) :
    frame buf = match readPacket buf with
      | none => []
      | some (payload, rest) => payload :: frame rest := by
  rw [← frameAux_eq_frame (buf.length / 2 + 1) buf (Nat.le_succ _), frameAux]
  cases hr : readPacket buf with
  | none => rfl
  | some pr =>
    obtain ⟨payload, rest⟩ := pr
    have := readPacket_length hr
    simp only
    rw [frameAux_eq_frame _ rest (by omega)]

theorem readPacket_packet (p rest : List Nat) (hp : p.length < 65536) (hne : p ++ rest ≠ []) :
    readPacket (packet p ++ rest) = some (p, rest) := by
  have hlen : (p.length / 256 % 256 % 256) * 256 + p.length % 256 % 256 = p.length := by omega
  have hpos : (p ++ rest).length ≠ 0 := fun e => hne (List.length_eq_zero.mp e)
  simp only [packet, List.cons_append, readPacket, hlen]
  rw [if_neg (by simp), if_neg hpos]
  simp

theorem readPacket_short (tail : List Nat)
    (h : tail.length < 2 ∨ ∃ h0 h1 rest, tail = h0 :: h1 :: rest ∧ h0 < 256 ∧ h1 < 256
      ∧ rest.length < h0 * 256 + h1) :
    readPacket tail = none := by
  rcases h with h | ⟨h0, h1, rest, rfl, hb0, hb1, hr⟩
  · match tail, h with
    | [], _ => rfl
    | [_], _ => rfl
  · simp only [readPacket, Nat.mod_eq_of_lt hb0, Nat.mod_eq_of_lt hb1]
    rw [if_pos hr]

theorem packet_ne_nil (p : List Nat) : packet p ≠ [] := by simp [packet]

/-- The packet loop does not depend on its fuel once that covers the stream:
it is the fold of the loop body over the framed payloads. -/
theorem loop_eq_foldl_frame (A : Arch) (pts : List F64) (speed : F64) (fuel : Nat)
    (buf : List Nat) (st : State) (h : buf.length / 2 ≤ fuel) :
    loop A pts speed fuel buf st = (frame buf).foldl (step A pts speed) st := by
  rw [loop_eq_foldl, frameAux_eq_frame fuel buf h]

/-- C9, as stated, fails: the stream made of the one empty payload behind its
header, with an empty tail, frames into no payload at all. -/
theorem c9_final_empty_payload_lost :
    frame ((([[]] : List (List Nat)).map packet).flatten ++ []) = []
    ∧ frame ((([[]] : List (List Nat)).map packet).flatten ++ []) ≠ [[]] := by
  decide

/-- C9, amended. For payloads each shorter than 65536 bytes and a tail that is
shorter than 2 bytes or a 2-byte big-endian length header followed by fewer
bytes than it declares, framing the concatenation of the framed payloads
followed by the tail yields exactly the payloads, in order, and nothing from the
tail, except that an empty last payload is not yielded when the tail is empty
(the stream ends with its header). -/
theorem c9_frame_roundtrip (ps : List (List Nat)) (tail : List Nat)
    (hps : ∀ p ∈ ps, p.length < 65536)
    (htail : tail.length < 2 ∨ ∃ h0 h1 rest, tail = h0 :: h1 :: rest ∧ h0 < 256 ∧ h1 < 256
      ∧ rest.length < h0 * 256 + h1) :
    frame ((ps.map packet).flatten ++ tail)
      = if tail = [] ∧ ps.getLast? = some [] then ps.dropLast else ps := by
  induction ps with
  | nil =>
    rw [frame_eq]
    simp [readPacket_short tail htail]
  | cons p ps ih =>
    have hp : p.length < 65536 := hps p (List.mem_cons_self _ _)
    have ih' := ih (fun q hq => hps q (List.mem_cons_of_mem _ hq))
    simp only [List.map_cons, List.flatten_cons, List.append_assoc]
    by_cases hne : p ++ ((ps.map packet).flatten ++ tail) = []
    · -- the stream ends with the header of the empty payload `p`
      have hp0 : p = [] := (List.append_eq_nil.mp hne).1
      have hrest := (List.append_eq_nil.mp hne).2
      have htl : tail = [] := (List.append_eq_nil.mp hrest).2
      have hps0 : ps = [] := by
        cases ps with
        | nil => rfl
        | cons q qs =>
          have := (List.append_eq_nil.mp hrest).1
          simp [packet] at this
      subst hp0 hps0 htl
      decide
    · rw [frame_eq, readPacket_packet p _ hp hne]
      simp only
      rw [ih']
      cases ps with
      | nil =>
        have hp' : p ≠ [] ∨ tail ≠ [] := by
          by_contra hc
          push_neg at hc
          exact hne (by simp [hc.1, hc.2])
        by_cases ht : tail = []
        · have : p ≠ [] := hp'.resolve_right (fun h => h ht)
          simp [ht, this]
        · simp [ht]
      | cons q qs =>
        by_cases hc : tail = [] ∧ (q :: qs).getLast? = some []
        · have hc' : tail = [] ∧ (p :: q :: qs).getLast? = some [] := by
            refine ⟨hc.1, ?_⟩
            rw [List.getLast?_cons_cons]; exact hc.2
          rw [if_pos hc, if_pos hc', List.dropLast_cons₂]
        · have hc' : ¬ (tail = [] ∧ (p :: q :: qs).getLast? = some []) := by
            rw [List.getLast?_cons_cons]; exact hc
          rw [if_neg hc, if_neg hc']

/-- C9 at a concrete input: the example's caption and fix packets followed by a
header that declares 5 bytes and has 2. -/
theorem c9_frame_roundtrip_witness :
    frame (([captionPacket, fixPacket].map packet).flatten ++ [0, 5, 65, 66])
      = if ([0, 5, 65, 66] : List Nat) = [] ∧ [captionPacket, fixPacket].getLast? = some []
        then [captionPacket, fixPacket].dropLast else [captionPacket, fixPacket] :=
  c9_frame_roundtrip [captionPacket, fixPacket] [0, 5, 65, 66]
    (by decide) (Or.inr ⟨0, 5, [65, 66], rfl, by decide, by decide, by decide⟩)

/-! ## Coordinate decoding (C10) -/

theorem indexByte_eq_firstDot (raw : Str) :
    indexByte 46 raw = match firstDot raw with
      | none => -1
      | some i => (i : Int) := by
  induction raw with
  | nil => rfl
  | cons b rest ih =>
    unfold indexByte firstDot
    by_cases hb : b = 46
    · simp [hb]
    · simp only [hb, if_false]
      rw [ih]
      cases firstDot rest with
      | none => simp
      | some i =>
        simp only [Option.map_some']
        have : ¬ ((i : Int) < 0) := by omega
        simp only [this, if_false]
        push_cast
        rfl

set_option maxRecDepth 100000 in
/-- C10. `parseCoord` equals the reference definition: with the first `.` at
index `i ≥ 2` the result is `value(raw[0 .. i-2]) + value(raw[i-2 ..]) / 60`,
negated exactly when the hemisphere is `S` or `W`; for the empty string, a
string without `.` and a first `.` at index below 2 the result is 0.
`"4807.038","N"` gives `48 + 7.038/60`, which is the float64 `48.1173`, and
`"01131.000","E"` gives `11 + 31/60`. -/
theorem c10_parseCoord_refines (raw hemisphere : Str) :
    parseCoord raw hemisphere = parseCoordSpec raw hemisphere
    ∧ parseCoord [] hemisphere = F64.zero
    ∧ (firstDot raw = none → parseCoord raw hemisphere = F64.zero)
    ∧ (∀ i, firstDot raw = some i → i < 2 → parseCoord raw hemisphere = F64.zero)
    ∧ (∀ i, firstDot raw = some i → 2 ≤ i →
        parseCoord raw hemisphere
          = if hemisphere = B "S" ∨ hemisphere = B "W"
            then F64.neg (F64.add (value (raw.take (i - 2)))
              (F64.div (value (raw.drop (i - 2))) (F64.ofInt 60)))
            else F64.add (value (raw.take (i - 2)))
              (F64.div (value (raw.drop (i - 2))) (F64.ofInt 60)))
    ∧ parseCoord (B "4807.038") (B "N") = F64.add (dec "48") (F64.div (dec "7.038") (dec "60"))
    ∧ parseCoord (B "4807.038") (B "N") = dec "48.1173"
    ∧ parseCoord (B "01131.000") (B "E") = F64.add (dec "11") (F64.div (dec "31") (dec "60"))
    ∧ parseCoord (B "01131.000") (B "W")
        = F64.neg (F64.add (dec "11") (F64.div (dec "31") (dec "60"))) := by
  have key : parseCoord raw hemisphere = parseCoordSpec raw hemisphere := by
    unfold parseCoord parseCoordSpec
    by_cases hr : raw = []
    · subst hr; rfl
    · simp only [hr, if_false]
      rw [indexByte_eq_firstDot]
      cases hd : firstDot raw with
      | none => simp
      | some i =>
        simp only
        by_cases hi : i < 2
        · have : ((i : Int) < 2) := by omega
          simp [hi, this]
        · have : ¬ ((i : Int) < 2) := by omega
          have hn : ((i : Int) - 2).toNat = i - 2 := by omega
          simp only [hi, this, if_false, hn, value]
  refine ⟨key, rfl, ?_, ?_, ?_, by decide, by decide, by decide, by decide⟩
  · intro h; rw [key]; unfold parseCoordSpec; rw [h]
  · intro i h hi; rw [key]; unfold parseCoordSpec; rw [h]; simp [hi]
  · intro i h hi
    rw [key]; unfold parseCoordSpec; rw [h]
    have : ¬ i < 2 := by omega
    simp only [this, if_false]

/-! ## Order of the seconds (C6) -/

/-- The points recorded so far are ordered in `sec` as soon as the seconds of
the timestamps are ordered along the list. -/
theorem stateAfter_sec_sorted (A : Arch) (pts : List F64) (speed : F64) (rawOut : List Nat)
    (hmono : ∀ (i j : Nat) (ti tj : F64), i < j → pts[i]? = some ti → pts[j]? = some tj →
      F64.toInt A (F64.floor (F64.div ti speed)) ≤ F64.toInt A (F64.floor (F64.div tj speed))) :
    ∀ n, List.Chain' (fun p q : Trackpoint => p.sec ≤ q.sec) (stateAfter A pts speed rawOut n).points
      ∧ ∀ tp ∈ (stateAfter A pts speed rawOut n).points, ∃ k t, k < n ∧ pts[k]? = some t
          ∧ tp.sec = F64.toInt A (F64.floor (F64.div t speed)) := by
  intro n
  induction n with
  | zero => simp [stateAfter, State.init]
  | succ n ih =>
    obtain ⟨hc, hm⟩ := ih
    rcases stateAfter_points_cases A pts speed rawOut n with e | ⟨_, t, tp', ht, e, hs⟩
    · rw [e]
      exact ⟨hc, fun tp h => by
        obtain ⟨k, t, hk, r⟩ := hm tp h
        exact ⟨k, t, Nat.lt_succ_of_lt hk, r⟩⟩
    · rw [e]
      refine ⟨?_, ?_⟩
      · rw [List.chain'_append]
        refine ⟨hc, List.chain'_singleton _, ?_⟩
        intro x hx y hy
        simp only [List.head?_cons, Option.mem_def, Option.some.injEq] at hy
        subst hy
        obtain ⟨k, tk, hk, htk, hsk⟩ := hm x (List.mem_of_mem_getLast? hx)
        rw [hsk, hs]
        exact hmono k n tk t hk htk ht
      · intro tp h
        rw [List.mem_append, List.mem_singleton] at h
        rcases h with h | h
        · obtain ⟨k, t, hk, r⟩ := hm tp h
          exact ⟨k, t, Nat.lt_succ_of_lt hk, r⟩
        · subst h; exact ⟨n, t, Nat.lt_succ_self n, ht, hs⟩

/-! ## Rounding to binary64 is monotone -/

namespace F64

theorem log2Aux_eq_log (fuel : Nat) : ∀ n, n ≤ fuel → log2Aux fuel n = Nat.log 2 n := by
  induction fuel with
  | zero => intro n h; rw [Nat.le_zero.mp h]; simp [log2Aux]
  | succ f ih =>
    intro n h
    unfold log2Aux
    by_cases h2 : n < 2
    · rw [if_pos h2, Nat.log_of_lt h2]
    · rw [if_neg h2, ih (n / 2) (by omega)]
      exact (Nat.log_of_one_lt_of_le (by norm_num) (by omega)).symm

theorem log2_eq_log (n : Nat) : log2 n = Nat.log 2 n := log2Aux_eq_log n n (Nat.le_refl n)

theorem log2_le (n : Nat) (h : n ≠ 0) : 2 ^ log2 n ≤ n := by
  rw [log2_eq_log]; exact Nat.pow_log_le_self 2 h

theorem lt_log2 (n : Nat) : n < 2 ^ (log2 n + 1) := by
  rw [log2_eq_log]; exact Nat.lt_pow_succ_log_self (by norm_num) n

theorem scaled_snd_ne_zero (n d : Nat) (s : Int) (hd : d ≠ 0) : (scaled n d s).2 ≠ 0 := by
  unfold scaled
  split
  · exact hd
  · exact Nat.mul_ne_zero hd (by positivity)

theorem scaled_val (n d : Nat) (s : Int) (hd : d ≠ 0) :
    ((scaled n d s).1 : ℚ) / ((scaled n d s).2 : ℚ) = (n : ℚ) / d * 2 ^ s := by
  have hd' : (d : ℚ) ≠ 0 := Nat.cast_ne_zero.mpr hd
  unfold scaled
  split
  · rename_i h
    have : (2 : ℚ) ^ s = 2 ^ s.toNat := by
      conv_lhs => rw [← Int.toNat_of_nonneg h]
      exact zpow_natCast 2 _
    simp only [Nat.cast_mul, Nat.cast_pow, Nat.cast_ofNat]
    rw [this]; field_simp
  · rename_i h
    have hs : 0 ≤ -s := by omega
    have : (2 : ℚ) ^ s = (2 ^ (-s).toNat)⁻¹ := by
      have h1 : (2 : ℚ) ^ (-s) = 2 ^ (-s).toNat := by
        conv_lhs => rw [← Int.toNat_of_nonneg hs]
        exact zpow_natCast 2 _
      rw [← h1, zpow_neg, inv_inv]
    simp only [Nat.cast_mul, Nat.cast_pow, Nat.cast_ofNat]
    rw [this]; field_simp

theorem rne_one (n : Nat) : rne n 1 = n := by
  unfold rne
  simp [Nat.mod_one]

theorem rne_le_succ (a b : Nat) : rne a b ≤ a / b + 1 := by
  unfold rne
  simp only
  split_ifs <;> omega

theorem le_rne (a b : Nat) : a / b ≤ rne a b := by
  unfold rne
  simp only
  split_ifs <;> omega

theorem rne_mono {a b a' b' : Nat} (hb : 0 < b) (hb' : 0 < b') (h : a * b' ≤ a' * b) :
    rne a b ≤ rne a' b' := by
  have hq : a / b ≤ a' / b' := by
    rw [Nat.le_div_iff_mul_le hb']
    have h1 : a / b * b ≤ a := Nat.div_mul_le_self a b
    have h2 : a / b * b' * b ≤ a' * b := by
      calc a / b * b' * b = a / b * b * b' := by ring
        _ ≤ a * b' := Nat.mul_le_mul_right _ h1
        _ ≤ a' * b := h
    exact Nat.le_of_mul_le_mul_right h2 hb
  rcases Nat.lt_or_ge (a / b) (a' / b') with hlt | hge
  · exact le_trans (rne_le_succ a b) (le_trans hlt (le_rne a' b'))
  · have heq : a / b = a' / b' := le_antisymm hq hge
    have hr : (a % b) * b' ≤ (a' % b') * b := by
      have e1 := Nat.div_add_mod a b
      have e2 := Nat.div_add_mod a' b'
      have e3 : (b * (a / b) + a % b) * b' ≤ (b' * (a' / b') + a' % b') * b := by
        rw [e1, e2]; exact h
      rw [heq] at e3
      nlinarith [e3]
    unfold rne
    simp only
    rw [← heq]
    have hlt1 : a % b < b := Nat.mod_lt _ hb
    have hlt2 : a' % b' < b' := Nat.mod_lt _ hb'
    split_ifs with c1 c2 c3 c4 c5 c6 c7 c8 <;> first
      | omega
      | (exfalso; nlinarith [hr, hlt1, hlt2])

end F64

namespace F64

theorem two_zpow_pos (e : Int) : (0 : ℚ) < 2 ^ e := zpow_pos (by norm_num) e

theorem ratio_lt (n d : Nat) (k : Int) (hd : d ≠ 0) :
    (n : ℚ) / d * 2 ^ k < 2 ^ ((log2 n : Int) - log2 d + k + 1) := by
  have hd0 : (0 : ℚ) < d := Nat.cast_pos.mpr (Nat.pos_of_ne_zero hd)
  have hn2 : (n : ℚ) < 2 ^ ((log2 n : Int) + 1) := by
    have := lt_log2 n
    have h' : (n : ℚ) < ((2 ^ (log2 n + 1) : Nat) : ℚ) := Nat.cast_lt.mpr this
    rw [Nat.cast_pow, Nat.cast_ofNat, ← zpow_natCast] at h'
    push_cast at h'
    exact h'
  have hd1 : (2 : ℚ) ^ (log2 d : Int) ≤ d := by
    have := log2_le d hd
    have h' : ((2 ^ log2 d : Nat) : ℚ) ≤ (d : ℚ) := Nat.cast_le.mpr this
    rw [Nat.cast_pow, Nat.cast_ofNat, ← zpow_natCast] at h'
    exact h'
  rw [div_mul_eq_mul_div, div_lt_iff₀ hd0]
  have e1 : (2 : ℚ) ^ ((log2 n : Int) - log2 d + k + 1)
      = 2 ^ ((log2 n : Int) + 1) * 2 ^ k * (2 ^ (log2 d : Int))⁻¹ := by
    rw [← zpow_neg, ← zpow_add₀ (by norm_num), ← zpow_add₀ (by norm_num)]
    congr 1; ring
  rw [e1]
  have hk := two_zpow_pos k
  have hl := two_zpow_pos (log2 d : Int)
  calc (n : ℚ) * 2 ^ k < 2 ^ ((log2 n : Int) + 1) * 2 ^ k := by
        exact mul_lt_mul_of_pos_right hn2 hk
    _ = 2 ^ ((log2 n : Int) + 1) * 2 ^ k * (2 ^ (log2 d : Int))⁻¹ * 2 ^ (log2 d : Int) := by
        field_simp
    _ ≤ 2 ^ ((log2 n : Int) + 1) * 2 ^ k * (2 ^ (log2 d : Int))⁻¹ * d := by
        apply mul_le_mul_of_nonneg_left hd1
        positivity

theorem lt_ratio (n d : Nat) (k : Int) (hn : n ≠ 0) (hd : d ≠ 0) :
    (2 : ℚ) ^ ((log2 n : Int) - log2 d + k - 1) < (n : ℚ) / d * 2 ^ k := by
  have hd0 : (0 : ℚ) < d := Nat.cast_pos.mpr (Nat.pos_of_ne_zero hd)
  have hn1 : (2 : ℚ) ^ (log2 n : Int) ≤ n := by
    have := log2_le n hn
    have h' : ((2 ^ log2 n : Nat) : ℚ) ≤ (n : ℚ) := Nat.cast_le.mpr this
    rw [Nat.cast_pow, Nat.cast_ofNat, ← zpow_natCast] at h'
    exact h'
  have hd2 : (d : ℚ) < 2 ^ ((log2 d : Int) + 1) := by
    have := lt_log2 d
    have h' : (d : ℚ) < ((2 ^ (log2 d + 1) : Nat) : ℚ) := Nat.cast_lt.mpr this
    rw [Nat.cast_pow, Nat.cast_ofNat, ← zpow_natCast] at h'
    push_cast at h'
    exact h'
  rw [div_mul_eq_mul_div, lt_div_iff₀ hd0]
  have e1 : (2 : ℚ) ^ ((log2 n : Int) - log2 d + k - 1)
      = 2 ^ (log2 n : Int) * 2 ^ k * (2 ^ ((log2 d : Int) + 1))⁻¹ := by
    rw [← zpow_neg, ← zpow_add₀ (by norm_num), ← zpow_add₀ (by norm_num)]
    congr 1; ring
  rw [e1]
  have hk := two_zpow_pos k
  have hl := two_zpow_pos ((log2 d : Int) + 1)
  have hln := two_zpow_pos (log2 n : Int)
  calc 2 ^ (log2 n : Int) * 2 ^ k * (2 ^ ((log2 d : Int) + 1))⁻¹ * (d : ℚ)
      < 2 ^ (log2 n : Int) * 2 ^ k * (2 ^ ((log2 d : Int) + 1))⁻¹ * 2 ^ ((log2 d : Int) + 1) := by
        apply mul_lt_mul_of_pos_left hd2
        positivity
    _ = 2 ^ (log2 n : Int) * 2 ^ k := by field_simp
    _ ≤ (n : ℚ) * 2 ^ k := mul_le_mul_of_nonneg_right hn1 (le_of_lt hk)

/-- `x * 2^(k - e)` against `2^c`, and `x * 2^k` against `2^(e + c)`. -/
theorem shift_lt (x : ℚ) (k e c : Int) : x * 2 ^ (k - e) < 2 ^ c ↔ x * 2 ^ k < 2 ^ (e + c) := by
  have he := two_zpow_pos e
  rw [zpow_sub₀ (by norm_num : (2 : ℚ) ≠ 0), zpow_add₀ (by norm_num : (2 : ℚ) ≠ 0),
    ← mul_div_assoc, div_lt_iff₀ he, mul_comm (2 ^ e) (2 ^ c)]

theorem shift_le (x : ℚ) (k e c : Int) : 2 ^ c ≤ x * 2 ^ (k - e) ↔ 2 ^ (e + c) ≤ x * 2 ^ k := by
  have he := two_zpow_pos e
  rw [zpow_sub₀ (by norm_num : (2 : ℚ) ≠ 0), zpow_add₀ (by norm_num : (2 : ℚ) ≠ 0),
    ← mul_div_assoc, le_div_iff₀ he, mul_comm (2 ^ e) (2 ^ c)]

theorem scaled_div_lt (n d : Nat) (s : Int) (c : Nat) (hd : d ≠ 0) :
    (scaled n d s).1 / (scaled n d s).2 < 2 ^ c ↔ (n : ℚ) / d * 2 ^ s < 2 ^ (c : Int) := by
  have hb := Nat.pos_of_ne_zero (scaled_snd_ne_zero n d s hd)
  have hb' : (0 : ℚ) < ((scaled n d s).2 : ℚ) := Nat.cast_pos.mpr hb
  rw [← scaled_val n d s hd, Nat.div_lt_iff_lt_mul hb, div_lt_iff₀ hb', zpow_natCast]
  constructor
  · intro h
    have : (((scaled n d s).1 : Nat) : ℚ) < ((2 ^ c * (scaled n d s).2 : Nat) : ℚ) :=
      Nat.cast_lt.mpr h
    simpa using this
  · intro h
    have : (((scaled n d s).1 : Nat) : ℚ) < ((2 ^ c * (scaled n d s).2 : Nat) : ℚ) := by
      simpa using h
    exact Nat.cast_lt.mp this

theorem binade_spec (n d : Nat) (k : Int) (hn : n ≠ 0) (hd : d ≠ 0) :
    -1074 ≤ binade n d k
    ∧ (n : ℚ) / d * 2 ^ k < 2 ^ (binade n d k + 53)
    ∧ (binade n d k = -1074 ∨ (2 : ℚ) ^ (binade n d k + 52) ≤ (n : ℚ) / d * 2 ^ k) := by
  have hup := ratio_lt n d k hd
  have hlo := lt_ratio n d k hn hd
  unfold binade
  simp only
  generalize hL : (log2 n : Int) - (log2 d : Int) + k = L at hup hlo
  have hmax : -1074 ≤ max (L - 52) (-1074) := le_max_right _ _
  have hcond := scaled_div_lt n d (k - max (L - 52) (-1074)) 52 hd
  have h52 : ((52 : Nat) : Int) = 52 := rfl
  rw [shift_lt, h52] at hcond
  by_cases hc : (scaled n d (k - max (L - 52) (-1074))).1 / (scaled n d (k - max (L - 52) (-1074))).2
      < 2 ^ 52 ∧ -1074 < max (L - 52) (-1074)
  · rw [if_pos hc]
    have hm : max (L - 52) (-1074) = L - 52 := by
      rcases max_cases (L - 52) (-1074) with ⟨h, _⟩ | ⟨h, _⟩
      · exact h
      · rw [h] at hc; exact absurd hc.2 (lt_irrefl _)
    rw [hm] at hc hcond ⊢
    refine ⟨by omega, ?_, Or.inr ?_⟩
    · have := hcond.mp hc.1
      have e : L - 52 - 1 + 53 = L - 52 + 52 := by ring
      rw [e]; exact this
    · have e : L - 52 - 1 + 52 = L - 1 := by ring
      rw [e]; exact le_of_lt hlo
  · rw [if_neg hc]
    refine ⟨hmax, ?_, ?_⟩
    · rcases max_cases (L - 52) (-1074) with ⟨h, _⟩ | ⟨h, h'⟩
      · rw [h]
        have e : L - 52 + 53 = L + 1 := by ring
        rw [e]; exact hup
      · rw [h]
        refine lt_of_lt_of_le hup ?_
        exact zpow_le_zpow_right₀ (by norm_num) (by omega)
    · by_cases h1 : -1074 < max (L - 52) (-1074)
      · right
        have hnlt : ¬ (scaled n d (k - max (L - 52) (-1074))).1
            / (scaled n d (k - max (L - 52) (-1074))).2 < 2 ^ 52 := fun h => hc ⟨h, h1⟩
        rw [hcond] at hnlt
        exact not_lt.mp hnlt
      · left; omega

end F64

namespace F64

theorem rval_nonneg (n d : Nat) (k : Int) : 0 ≤ rval n d k := by
  unfold rval
  split
  · exact le_refl 0
  · exact mul_nonneg (Nat.cast_nonneg _) (le_of_lt (two_zpow_pos _))

/-- The rounded mantissa is at most `2^53`. -/
theorem rne_binade_le (n d : Nat) (k : Int) (hn : n ≠ 0) (hd : d ≠ 0) :
    rne (scaled n d (k - binade n d k)).1 (scaled n d (k - binade n d k)).2 ≤ 2 ^ 53 := by
  have hb := Nat.pos_of_ne_zero (scaled_snd_ne_zero n d (k - binade n d k) hd)
  have hlt := (scaled_div_lt n d (k - binade n d k) 53 hd).mpr (by
    rw [shift_lt]; exact (binade_spec n d k hn hd).2.1)
  exact le_trans (rne_le_succ _ _) hlt

/-- The rounded mantissa of a normal result is at least `2^52`. -/
theorem le_rne_binade (n d : Nat) (k : Int) (hn : n ≠ 0) (hd : d ≠ 0)
    (he : binade n d k ≠ -1074) :
    2 ^ 52 ≤ rne (scaled n d (k - binade n d k)).1 (scaled n d (k - binade n d k)).2 := by
  have hspec := (binade_spec n d k hn hd).2.2.resolve_left he
  have h1 : ¬ (scaled n d (k - binade n d k)).1 / (scaled n d (k - binade n d k)).2 < 2 ^ 52 := by
    rw [scaled_div_lt n d (k - binade n d k) 52 hd, shift_lt]
    exact not_lt.mpr hspec
  exact le_trans (not_lt.mp h1) (le_rne _ _)

/-- What `round` returns when it returns a finite value. -/
theorem round_fin {neg s : Bool} {n d m : Nat} {k e : Int} (hd : d ≠ 0)
    (h : round neg n d k = fin s m e) :
    s = neg ∧ m < 2 ^ 53 ∧ (m : ℚ) * 2 ^ e = rval n d k := by
  unfold round at h
  unfold rval
  by_cases hn : n = 0
  · simp only [hn, if_true, fin.injEq] at h ⊢
    obtain ⟨h1, h2, _⟩ := h
    subst h1 h2
    simp
  · simp only [hn, if_false] at h ⊢
    have hM := rne_binade_le n d k hn hd
    generalize rne (scaled n d (k - binade n d k)).1 (scaled n d (k - binade n d k)).2 = M at h hM ⊢
    generalize binade n d k = E at h ⊢
    by_cases h53 : M = 2 ^ 53
    · simp only [h53, if_true] at h ⊢
      split at h
      · exact F64.noConfusion h
      · simp only [fin.injEq] at h
        obtain ⟨h1, h2, h3⟩ := h
        subst h1 h2 h3
        refine ⟨rfl, by norm_num, ?_⟩
        rw [zpow_add₀ (by norm_num : (2 : ℚ) ≠ 0)]
        norm_num
        ring
    · simp only [h53, if_false] at h
      split at h
      · exact F64.noConfusion h
      · simp only [fin.injEq] at h
        obtain ⟨h1, h2, h3⟩ := h
        subst h1 h2 h3
        exact ⟨rfl, lt_of_le_of_ne hM h53, rfl⟩

theorem binade_mono {n d n' d' : Nat} {k k' : Int} (hn : n ≠ 0) (hd : d ≠ 0) (hn' : n' ≠ 0)
    (hd' : d' ≠ 0) (h : (n : ℚ) / d * 2 ^ k ≤ (n' : ℚ) / d' * 2 ^ k') :
    binade n d k ≤ binade n' d' k' := by
  obtain ⟨h1, _, h3⟩ := binade_spec n d k hn hd
  obtain ⟨h1', h2', _⟩ := binade_spec n' d' k' hn' hd'
  by_contra hc
  push_neg at hc
  have hne : binade n d k ≠ -1074 := by omega
  have hlo := h3.resolve_left hne
  have : (2 : ℚ) ^ (binade n d k + 52) < 2 ^ (binade n' d' k' + 53) :=
    lt_of_le_of_lt (le_trans hlo h) h2'
  have := (zpow_lt_zpow_iff_right₀ (by norm_num : (1 : ℚ) < 2)).mp this
  omega

theorem rval_mono {n d n' d' : Nat} {k k' : Int} (hd : d ≠ 0) (hd' : d' ≠ 0)
    (h : (n : ℚ) / d * 2 ^ k ≤ (n' : ℚ) / d' * 2 ^ k') :
    rval n d k ≤ rval n' d' k' := by
  by_cases hn : n = 0
  · have : rval n d k = 0 := by unfold rval; rw [if_pos hn]
    rw [this]; exact rval_nonneg _ _ _
  · have hd0 : (0 : ℚ) < d := Nat.cast_pos.mpr (Nat.pos_of_ne_zero hd)
    have hn0 : (0 : ℚ) < n := Nat.cast_pos.mpr (Nat.pos_of_ne_zero hn)
    have hx : (0 : ℚ) < (n : ℚ) / d * 2 ^ k := mul_pos (div_pos hn0 hd0) (two_zpow_pos k)
    have hn' : n' ≠ 0 := by
      intro e
      rw [e] at h
      simp at h
      exact absurd (lt_of_lt_of_le hx h) (lt_irrefl _)
    have hE := binade_mono hn hd hn' hd' h
    unfold rval
    rw [if_neg hn, if_neg hn']
    rcases lt_or_eq_of_le hE with hlt | heq
    · have hM := rne_binade_le n d k hn hd
      have hM' := le_rne_binade n' d' k' hn' hd' (by
        have := (binade_spec n d k hn hd).1; omega)
      have hMq : ((rne (scaled n d (k - binade n d k)).1 (scaled n d (k - binade n d k)).2 : Nat) : ℚ)
          ≤ 2 ^ 53 := by exact_mod_cast hM
      have hMq' : (2 : ℚ) ^ 52 ≤ ((rne (scaled n' d' (k' - binade n' d' k')).1
          (scaled n' d' (k' - binade n' d' k')).2 : Nat) : ℚ) := by exact_mod_cast hM'
      calc _ ≤ (2 : ℚ) ^ 53 * 2 ^ binade n d k :=
            mul_le_mul_of_nonneg_right hMq (le_of_lt (two_zpow_pos _))
        _ = 2 ^ 52 * 2 ^ (binade n d k + 1) := by
            rw [zpow_add₀ (by norm_num : (2 : ℚ) ≠ 0)]; norm_num; ring
        _ ≤ 2 ^ 52 * 2 ^ binade n' d' k' := by
            apply mul_le_mul_of_nonneg_left _ (by norm_num)
            exact zpow_le_zpow_right₀ (by norm_num) (by omega)
        _ ≤ _ := mul_le_mul_of_nonneg_right hMq' (le_of_lt (two_zpow_pos _))
    · rw [← heq]
      apply mul_le_mul_of_nonneg_right _ (le_of_lt (two_zpow_pos _))
      apply Nat.cast_le.mpr
      have hb := Nat.pos_of_ne_zero (scaled_snd_ne_zero n d (k - binade n d k) hd)
      have hb' := Nat.pos_of_ne_zero (scaled_snd_ne_zero n' d' (k' - binade n d k) hd')
      apply rne_mono hb hb'
      have hbq : (0 : ℚ) < ((scaled n d (k - binade n d k)).2 : ℚ) := Nat.cast_pos.mpr hb
      have hbq' : (0 : ℚ) < ((scaled n' d' (k' - binade n d k)).2 : ℚ) := Nat.cast_pos.mpr hb'
      have hv : ((scaled n d (k - binade n d k)).1 : ℚ) / ((scaled n d (k - binade n d k)).2 : ℚ)
          ≤ ((scaled n' d' (k' - binade n d k)).1 : ℚ) / ((scaled n' d' (k' - binade n d k)).2 : ℚ) := by
        rw [scaled_val n d _ hd, scaled_val n' d' _ hd']
        rw [zpow_sub₀ (by norm_num : (2 : ℚ) ≠ 0), zpow_sub₀ (by norm_num : (2 : ℚ) ≠ 0),
          ← mul_div_assoc, ← mul_div_assoc]
        exact div_le_div_of_nonneg_right h (le_of_lt (two_zpow_pos _))
      rw [div_le_div_iff₀ hbq hbq'] at hv
      exact_mod_cast hv

end F64

namespace F64

theorem natCast_two_pow_toNat (e : Int) (he : 0 ≤ e) : (((2 ^ e.toNat : Nat)) : ℚ) = 2 ^ e := by
  rw [Nat.cast_pow, Nat.cast_ofNat, ← zpow_natCast, Int.toNat_of_nonneg he]

theorem two_zpow_neg_toNat (e : Int) (he : e < 0) :
    (2 : ℚ) ^ e = (((2 ^ (-e).toNat : Nat)) : ℚ)⁻¹ := by
  rw [natCast_two_pow_toNat (-e) (by omega), zpow_neg, inv_inv]

theorem toRat_fin (s : Bool) (m : Nat) (e : Int) :
    toRat (fin s m e) = (if s then -1 else 1) * ((m : ℚ) * 2 ^ e) := rfl

theorem trunc_zero (s : Bool) (e : Int) : trunc s 0 e = 0 := by
  unfold trunc
  cases s <;> simp

theorem two_zpow_53 : (2 : ℚ) ^ (53 : Int) = ((2 ^ 53 : Nat) : ℚ) := by norm_num

/-- Rounding an integer of at most 54 bits is exact. -/
theorem round_int_exact (s : Bool) (n : Nat) (hn : n ≤ 2 ^ 53) :
    ∃ m e, round s n 1 0 = fin s m e ∧ trunc s m e = if s then -(n : Int) else (n : Int) := by
  by_cases h0 : n = 0
  · subst h0
    refine ⟨0, -1074, by simp [round], ?_⟩
    rw [trunc_zero]
    cases s <;> simp
  · obtain ⟨hE1, hE2, hE3⟩ := binade_spec n 1 0 h0 (by norm_num)
    simp only [Nat.cast_one, div_one, zpow_zero, mul_one] at hE2 hE3
    have hn1 : (1 : ℚ) ≤ n := by exact_mod_cast Nat.pos_of_ne_zero h0
    have hnq : (n : ℚ) ≤ 2 ^ (53 : Int) := by
      rw [two_zpow_53]; exact Nat.cast_le.mpr hn
    have hlo : -53 < binade n 1 0 := by
      have : (2 : ℚ) ^ (0 : Int) < 2 ^ (binade n 1 0 + 53) := by
        rw [zpow_zero]; exact lt_of_le_of_lt hn1 hE2
      have := (zpow_lt_zpow_iff_right₀ (by norm_num : (1 : ℚ) < 2)).mp this
      omega
    have hE3' := hE3.resolve_left (by omega)
    have hhi : binade n 1 0 ≤ 1 := by
      have := (zpow_le_zpow_iff_right₀ (by norm_num : (1 : ℚ) < 2)).mp (le_trans hE3' hnq)
      omega
    unfold round
    rw [if_neg h0]
    simp only
    generalize hE : binade n 1 0 = E at hE2 hE3' hlo hhi
    by_cases hpos : E ≤ 0
    · have hsc : scaled n 1 (0 - E) = (n * 2 ^ (-E).toNat, 1) := by
        unfold scaled
        rw [if_pos (by omega)]
        simp
      rw [hsc]
      simp only [rne_one]
      have hPq : (((2 ^ (-E).toNat : Nat)) : ℚ) = 2 ^ (-E) := natCast_two_pow_toNat (-E) (by omega)
      have hlt : n * 2 ^ (-E).toNat < 2 ^ 53 := by
        have h1 : (n : ℚ) * 2 ^ (-E) < 2 ^ (53 : Int) := by
          have := mul_lt_mul_of_pos_right hE2 (two_zpow_pos (-E))
          rw [← zpow_add₀ (by norm_num : (2 : ℚ) ≠ 0)] at this
          have e : E + 53 + -E = 53 := by ring
          rw [e] at this
          exact this
        rw [← hPq, two_zpow_53, ← Nat.cast_mul] at h1
        exact Nat.cast_lt.mp h1
      rw [if_neg (by omega), if_neg (by omega), if_neg (by omega)]
      refine ⟨_, _, rfl, ?_⟩
      unfold trunc
      by_cases hz : 0 ≤ E
      · have : E = 0 := by omega
        subst this
        simp
      · rw [if_neg hz]
        have hP : 0 < 2 ^ (-E).toNat := by positivity
        rw [Nat.mul_div_cancel _ hP]
    · have hE1' : E = 1 := by omega
      subst hE1'
      have hn53 : n = 2 ^ 53 := by
        have h1 : (2 : ℚ) ^ (53 : Int) ≤ n := by
          have e : (1 : Int) + 52 = 53 := by norm_num
          rw [e] at hE3'; exact hE3'
        rw [two_zpow_53] at h1
        exact le_antisymm hn (Nat.cast_le.mp h1)
      subst hn53
      cases s <;> exact ⟨2 ^ 52, 1, by decide, by decide⟩

/-- `math.Floor` followed by the conversion to `int` is the integer floor of
the value, for a float64 in stored form. -/
theorem floor_trunc (s : Bool) (m : Nat) (e : Int) (hm : m < 2 ^ 53) :
    ∃ s' m' e', floor (fin s m e) = fin s' m' e'
      ∧ trunc s' m' e' = ⌊toRat (fin s m e)⌋ := by
  by_cases he : 0 ≤ e
  · simp only [floor, he, if_true]
    refine ⟨s, m, e, rfl, ?_⟩
    rw [toRat_fin]
    unfold trunc
    rw [if_pos he]
    have hq : ((m : ℚ) * 2 ^ e) = (((m * 2 ^ e.toNat : Nat) : Int) : ℚ) := by
      push_cast
      rw [← natCast_two_pow_toNat e he]
      push_cast
      rfl
    rw [hq]
    cases s
    · simp only [Bool.false_eq_true, if_false, one_mul]
      exact (Int.floor_intCast _).symm
    · simp only [if_true, neg_one_mul]
      rw [← Int.cast_neg]
      exact (Int.floor_intCast _).symm
  · simp only [floor, he, if_false]
    have he' : e < 0 := by omega
    set P := 2 ^ (-e).toNat with hP
    have hPpos : 0 < P := by positivity
    have hPq : (0 : ℚ) < (P : ℚ) := Nat.cast_pos.mpr hPpos
    have hdm := Nat.div_add_mod m P
    have hmod := Nat.mod_lt m hPpos
    have hq : m / P ≤ m := Nat.div_le_self m P
    have hnb : (if s = true ∧ m % P ≠ 0 then m / P + 1 else m / P) ≤ 2 ^ 53 := by
      split_ifs <;> omega
    obtain ⟨m', e', hr, ht⟩ := round_int_exact s _ hnb
    refine ⟨s, m', e', hr, ?_⟩
    rw [ht]
    symm
    rw [Int.floor_eq_iff]
    rw [toRat_fin, two_zpow_neg_toNat e he', ← hP]
    have hmq : (m : ℚ) = (P : ℚ) * ((m / P : Nat) : ℚ) + ((m % P : Nat) : ℚ) := by
      exact_mod_cast hdm.symm
    have hrq : ((m % P : Nat) : ℚ) < (P : ℚ) := Nat.cast_lt.mpr hmod
    have hr0 : (0 : ℚ) ≤ ((m % P : Nat) : ℚ) := Nat.cast_nonneg _
    have hval : (m : ℚ) * (P : ℚ)⁻¹ = ((m / P : Nat) : ℚ) + ((m % P : Nat) : ℚ) / P := by
      rw [hmq]; field_simp; ring
    have hfrac_lt : ((m % P : Nat) : ℚ) / P < 1 := (div_lt_one hPq).mpr hrq
    have hfrac_nn : (0 : ℚ) ≤ ((m % P : Nat) : ℚ) / P := div_nonneg hr0 (le_of_lt hPq)
    cases s
    · simp only [Bool.false_eq_true, false_and, if_false, one_mul, Int.cast_natCast]
      rw [hval]
      constructor <;> linarith
    · by_cases hr' : m % P = 0
      · simp only [hr', ne_eq, not_true_eq_false, and_false, if_false, if_true, neg_one_mul,
          Int.cast_neg, Int.cast_natCast]
        rw [hval, hr']
        simp
      · have hpos : (0 : ℚ) < ((m % P : Nat) : ℚ) / P :=
          div_pos (Nat.cast_pos.mpr (Nat.pos_of_ne_zero hr')) hPq
        simp only [hr', ne_eq, not_false_eq_true, and_self, if_true, neg_one_mul,
          Int.cast_neg, Int.cast_natCast]
        rw [hval]
        push_cast
        constructor <;> linarith

end F64

namespace F64

theorem numer_val (s : Bool) (m : Nat) (e e0 : Int) (h : e0 ≤ e) :
    ((numer s m e e0 : Int) : ℚ) * 2 ^ e0 = toRat (fin s m e) := by
  rw [toRat_fin]
  unfold numer
  have hp : (2 : ℚ) ^ (e - e0).toNat * 2 ^ e0 = 2 ^ e := by
    have := natCast_two_pow_toNat (e - e0) (by omega)
    rw [Nat.cast_pow, Nat.cast_ofNat] at this
    rw [this, ← zpow_add₀ (by norm_num : (2 : ℚ) ≠ 0)]
    congr 1; ring
  cases s
  · simp only [Bool.false_eq_true, if_false, one_mul]
    push_cast
    rw [mul_assoc, hp]
  · simp only [if_true, neg_one_mul]
    push_cast
    rw [neg_mul, mul_assoc, hp]

theorem le_fin_iff (s : Bool) (m : Nat) (e : Int) (t : Bool) (m' : Nat) (e' : Int) :
    le (fin s m e) (fin t m' e') = true ↔ toRat (fin s m e) ≤ toRat (fin t m' e') := by
  rw [← numer_val s m e (min e e') (min_le_left _ _),
    ← numer_val t m' e' (min e e') (min_le_right _ _)]
  simp only [le, decide_eq_true_eq]
  rw [mul_le_mul_right (two_zpow_pos _)]
  exact Int.cast_le.symm

theorem lt_zero_fin {s : Bool} {m : Nat} {e : Int} (h : lt zero (fin s m e) = true) :
    s = false ∧ m ≠ 0 := by
  simp only [lt, zero, decide_eq_true_eq, numer] at h
  cases s
  · refine ⟨rfl, ?_⟩
    intro hm
    subst hm
    simp at h
  · exfalso
    simp only [if_true, Bool.false_eq_true, if_false] at h
    have h1 : (0 : Int) ≤ ((m * 2 ^ (e - min (-1074) e).toNat : Nat) : Int) := Int.natCast_nonneg _
    have h2 : ((0 * 2 ^ (-1074 - min (-1074) e).toNat : Nat) : Int) = 0 := by simp
    omega

/-- The quotient of two values, as `div` hands it to `round`. -/
theorem ratio_eq (m ms : Nat) (e es : Int) :
    (m : ℚ) / ms * 2 ^ (e - es) = ((m : ℚ) * 2 ^ e) / ((ms : ℚ) * 2 ^ es) := by
  rw [zpow_sub₀ (by norm_num : (2 : ℚ) ≠ 0)]
  have := two_zpow_pos es
  by_cases h : (ms : ℚ) = 0
  · simp [h]
  · field_simp

/-- The second of a timestamp, for a finite positive speed factor: the integer
floor of the rounded quotient. -/
theorem sec_eq_floor (A : Arch) (t : F64) (ms : Nat) (es : Int) (hms : ms ≠ 0)
    (hfit : fitsInt (floor (div t (fin false ms es))) = true) :
    ∃ s m e, t = fin s m e
      ∧ toInt A (floor (div t (fin false ms es)))
          = ⌊(if s then (-1 : ℚ) else 1) * rval m ms (e - es)⌋ := by
  cases t with
  | nan => simp [div, floor, fitsInt] at hfit
  | inf s => simp [div, floor, fitsInt] at hfit
  | fin s m e =>
    refine ⟨s, m, e, rfl, ?_⟩
    have hdiv : div (fin s m e) (fin false ms es) = round s m ms (e - es) := by
      simp [div, hms]
    rw [hdiv] at hfit ⊢
    cases hr : round s m ms (e - es) with
    | nan => rw [hr] at hfit; simp [floor, fitsInt] at hfit
    | inf s' => rw [hr] at hfit; simp [floor, fitsInt] at hfit
    | fin sq mq eq =>
      obtain ⟨hs, hmq, hval⟩ := round_fin hms hr
      obtain ⟨s', m', e', hfl, htr⟩ := floor_trunc sq mq eq hmq
      rw [hr] at hfit
      rw [hfl] at hfit ⊢
      simp only [fitsInt, decide_eq_true_eq] at hfit
      simp only [toInt, hfit, and_self, if_true]
      rw [htr, toRat_fin, hval, hs]

theorem sec_mono (A : Arch) (t1 t2 : F64) (ms : Nat) (es : Int) (hms : ms ≠ 0)
    (hfit1 : fitsInt (floor (div t1 (fin false ms es))) = true)
    (hfit2 : fitsInt (floor (div t2 (fin false ms es))) = true)
    (hle : toRat t1 ≤ toRat t2) :
    toInt A (floor (div t1 (fin false ms es))) ≤ toInt A (floor (div t2 (fin false ms es))) := by
  obtain ⟨s1, m1, e1, rfl, h1⟩ := sec_eq_floor A t1 ms es hms hfit1
  obtain ⟨s2, m2, e2, rfl, h2⟩ := sec_eq_floor A t2 ms es hms hfit2
  rw [h1, h2]
  apply Int.floor_mono
  rw [toRat_fin, toRat_fin] at hle
  have hden : (0 : ℚ) < (ms : ℚ) * 2 ^ es :=
    mul_pos (Nat.cast_pos.mpr (Nat.pos_of_ne_zero hms)) (two_zpow_pos es)
  have hn1 : (0 : ℚ) ≤ (m1 : ℚ) * 2 ^ e1 := mul_nonneg (Nat.cast_nonneg _) (le_of_lt (two_zpow_pos _))
  have hn2 : (0 : ℚ) ≤ (m2 : ℚ) * 2 ^ e2 := mul_nonneg (Nat.cast_nonneg _) (le_of_lt (two_zpow_pos _))
  have r1 := rval_nonneg m1 ms (e1 - es)
  have r2 := rval_nonneg m2 ms (e2 - es)
  cases s1 <;> cases s2
  · simp only [Bool.false_eq_true, if_false, one_mul] at hle ⊢
    apply rval_mono hms hms
    rw [ratio_eq, ratio_eq]
    exact div_le_div_of_nonneg_right hle (le_of_lt hden)
  · simp only [Bool.false_eq_true, if_false, if_true, one_mul, neg_one_mul] at hle ⊢
    have hz1 : (m1 : ℚ) * 2 ^ e1 = 0 := by linarith
    have hm1 : m1 = 0 := by
      rcases mul_eq_zero.mp hz1 with h | h
      · exact_mod_cast h
      · exact absurd h (ne_of_gt (two_zpow_pos _))
    have hz2 : (m2 : ℚ) * 2 ^ e2 = 0 := by linarith
    have hm2 : m2 = 0 := by
      rcases mul_eq_zero.mp hz2 with h | h
      · exact_mod_cast h
      · exact absurd h (ne_of_gt (two_zpow_pos _))
    subst hm1 hm2
    simp [rval]
  · simp only [Bool.false_eq_true, if_false, if_true, one_mul, neg_one_mul] at hle ⊢
    linarith
  · simp only [if_true, neg_one_mul, neg_le_neg_iff] at hle ⊢
    apply rval_mono hms hms
    rw [ratio_eq, ratio_eq]
    exact div_le_div_of_nonneg_right hle (le_of_lt hden)

set_option exponentiation.threshold 2000 in
theorem sec_inf (A : Arch) (t : F64)
    (hfit : fitsInt (floor (div t (inf false))) = true) :
    toInt A (floor (div t (inf false))) = 0 := by
  cases t with
  | nan => simp [div, floor, fitsInt] at hfit
  | inf s => simp [div, floor, fitsInt] at hfit
  | fin s m e =>
    have hfl : floor (div (fin s m e) (inf false)) = fin (xor s false) 0 (-1074) := by
      simp [div, floor, round]
    rw [hfl]
    simp [toInt, trunc_zero]

theorem finite_of_fits (t : F64) (ms : Nat) (es : Int)
    (hfit : fitsInt (floor (div t (fin false ms es))) = true) : ∃ s m e, t = fin s m e := by
  cases t with
  | nan => simp [div, floor, fitsInt] at hfit
  | inf s => simp [div, floor, fitsInt] at hfit
  | fin s m e => exact ⟨s, m, e, rfl⟩

theorem pairwise_toRat (l : List F64) (hfin : ∀ t ∈ l, ∃ s m e, t = fin s m e)
    (hc : List.Chain' (fun a b => le a b = true) l) :
    List.Pairwise (fun a b => toRat a ≤ toRat b) l := by
  have hc' : List.Chain' (fun a b => toRat a ≤ toRat b) l := by
    rw [List.Chain'.iff_mem] at hc
    refine hc.imp ?_
    intro a b ⟨ha, hb, hab⟩
    obtain ⟨s, m, e, rfl⟩ := hfin a ha
    obtain ⟨s', m', e', rfl⟩ := hfin b hb
    exact (le_fin_iff s m e s' m' e').mp hab
  haveI : IsTrans F64 (fun a b => toRat a ≤ toRat b) := ⟨fun _ _ _ h1 h2 => le_trans h1 h2⟩
  exact List.chain'_iff_pairwise.mp hc'

end F64

/-! ## Packet index and seconds: the claim (C5) -/

namespace F64

/-- A finite quotient is in stored form. -/
theorem div_fin_lt {a b : F64} {s : Bool} {m : Nat} {e : Int} (h : div a b = fin s m e) :
    m < 2 ^ 53 := by
  cases a with
  | nan => simp [div] at h
  | inf sa =>
    cases b <;> simp [div] at h
  | fin sa ma ea =>
    cases b with
    | nan => simp [div] at h
    | inf sb =>
      simp only [div, fin.injEq] at h
      rw [← h.2.1]
      norm_num
    | fin sb mb eb =>
      simp only [div] at h
      by_cases hmb : mb = 0
      · rw [if_pos hmb] at h
        split at h <;> exact F64.noConfusion h
      · rw [if_neg hmb] at h
        exact (round_fin hmb h).2.1

/-- Within the range of `int`, line 137 computes the integer floor of the
float64 quotient. -/
theorem sec_eq_floor_toRat (A : Arch) (t speed : F64)
    (hfit : fitsInt (floor (div t speed)) = true) :
    toInt A (floor (div t speed)) = ⌊toRat (div t speed)⌋ := by
  cases hd : div t speed with
  | nan => rw [hd] at hfit; simp [floor, fitsInt] at hfit
  | inf s => rw [hd] at hfit; simp [floor, fitsInt] at hfit
  | fin s m e =>
    obtain ⟨s', m', e', hfl, htr⟩ := floor_trunc s m e (div_fin_lt hd)
    rw [hd] at hfit
    rw [hfl] at hfit ⊢
    simp only [fitsInt, decide_eq_true_eq] at hfit
    simp only [toInt, hfit, and_self, if_true]
    exact htr

end F64

set_option maxRecDepth 100000 in
set_option exponentiation.threshold 2000 in
/-- C5, as stated, fails where the floor does not fit `int`: on amd64, with the
one timestamp `1e19`, speed factor 1 and one fix, the quotient is the float64
`10^19`, whose floor is `10^19`, and the `sec` of the Trackpoint is `-2^63`. -/
theorem c5_sec_out_of_range_amd64 :
    (scan amd64 [dec "1e19"] (dec "1") (packet fixPacket)).points.map (fun p => p.sec)
      = [-9223372036854775808]
    ∧ F64.div (dec "1e19") (dec "1") = F64.fin false 4882812500000000 11
    ∧ ⌊F64.toRat (F64.div (dec "1e19") (dec "1"))⌋ = 10000000000000000000
    ∧ F64.fitsInt (F64.floor (F64.div (dec "1e19") (dec "1"))) = false := by
  have hd : F64.div (dec "1e19") (dec "1") = F64.fin false 4882812500000000 11 := by decide
  refine ⟨by decide, hd, ?_, by decide⟩
  rw [hd, F64.toRat_fin, Int.floor_eq_iff]
  norm_num

/-- C5, amended. Every Trackpoint of the output was appended by a framed packet
whose 0-based index `k` (the cursor value, which counts every framed packet) is
below the length of the timestamp list; its `sec` is `int(math.Floor(pts[k] /
speedFactor))`, which equals the integer floor of the float64 quotient
`pts[k] / speedFactor` whenever that floor lies in the range of `int`; a packet
with index at or beyond the length of the list appends nothing.  The loop body
reads `pts` only at the cursor and only after the bound check of line 116, which
the definition of `step` carries as the proof of its index. -/
theorem c5_points_indexed (A : Arch) (pts : List F64) (rawOut : List Nat) (speed : F64) :
    (∀ k, k ≤ (frame rawOut).length → (stateAfter A pts speed rawOut k).packetIdx = k)
    ∧ (∀ tp ∈ (scan A pts speed rawOut).points,
        ∃ k t, k < (frame rawOut).length ∧ k < pts.length ∧ pts[k]? = some t
          ∧ (stateAfter A pts speed rawOut (k + 1)).points
              = (stateAfter A pts speed rawOut k).points ++ [tp]
          ∧ tp.sec = F64.toInt A (F64.floor (F64.div t speed))
          ∧ (F64.fitsInt (F64.floor (F64.div t speed)) = true →
              tp.sec = ⌊F64.toRat (F64.div t speed)⌋))
    ∧ (∀ k, pts.length ≤ k →
        (stateAfter A pts speed rawOut (k + 1)).points
          = (stateAfter A pts speed rawOut k).points) := by
  refine ⟨fun k hk => stateAfter_packetIdx A pts speed rawOut k hk, ?_, ?_⟩
  · intro tp h
    rw [← stateAfter_of_length_le A pts speed rawOut _ (Nat.le_refl _)] at h
    obtain ⟨k, t, hk, ht, e, hs⟩ := mem_stateAfter_points A pts speed rawOut _ tp h
    have hlt : k < pts.length := by
      by_contra hc
      rw [List.getElem?_eq_none (Nat.not_lt.mp hc)] at ht
      exact Option.noConfusion ht
    exact ⟨k, t, hk, hlt, ht, e, hs, fun hfit => by
      rw [hs]; exact F64.sec_eq_floor_toRat A t speed hfit⟩
  · intro k hk
    rcases stateAfter_points_cases A pts speed rawOut k with e | ⟨_, t, tp, ht, _, _⟩
    · exact e
    · rw [List.getElem?_eq_none hk] at ht
      exact Option.noConfusion ht

set_option maxRecDepth 100000 in
set_option exponentiation.threshold 2000 in
/-- C5 at a concrete input: two different fixes at timestamps 0.5 and 7.25 with
speed factor 3.  The quotients are the float64 nearest to 1/6 and to 29/12, of
floors 0 and 2, and those are the seconds of the two Trackpoints. -/
theorem c5_points_indexed_witness :
    (scan amd64 [dec "0.5", dec "7.25"] (dec "3")
        (packet fixPacket ++ packet laterFixPacket)).points.map (fun p => p.sec) = [0, 2]
    ∧ ⌊F64.toRat (F64.div (dec "0.5") (dec "3"))⌋ = 0
    ∧ ⌊F64.toRat (F64.div (dec "7.25") (dec "3"))⌋ = 2
    ∧ ∀ tp ∈ (scan amd64 [dec "0.5", dec "7.25"] (dec "3")
        (packet fixPacket ++ packet laterFixPacket)).points,
        ∃ k t, k < (frame (packet fixPacket ++ packet laterFixPacket)).length
          ∧ k < [dec "0.5", dec "7.25"].length ∧ [dec "0.5", dec "7.25"][k]? = some t
          ∧ (stateAfter amd64 [dec "0.5", dec "7.25"] (dec "3")
              (packet fixPacket ++ packet laterFixPacket) (k + 1)).points
              = (stateAfter amd64 [dec "0.5", dec "7.25"] (dec "3")
                  (packet fixPacket ++ packet laterFixPacket) k).points ++ [tp]
          ∧ tp.sec = F64.toInt amd64 (F64.floor (F64.div t (dec "3")))
          ∧ (F64.fitsInt (F64.floor (F64.div t (dec "3"))) = true →
              tp.sec = ⌊F64.toRat (F64.div t (dec "3"))⌋) :=
  ⟨by decide,
    (F64.sec_eq_floor_toRat amd64 (dec "0.5") (dec "3") (by decide)).symm.trans (by decide),
    (F64.sec_eq_floor_toRat amd64 (dec "7.25") (dec "3") (by decide)).symm.trans (by decide),
    (c5_points_indexed amd64 [dec "0.5", dec "7.25"]
      (packet fixPacket ++ packet laterFixPacket) (dec "3")).2.1⟩

/-! ## Order of the seconds: the claim (C6) -/

set_option maxRecDepth 100000 in
set_option exponentiation.threshold 2000 in
/-- C6, as stated, fails where the conversion of line 137 overflows: on amd64,
with the non-decreasing timestamps `[0.0, 1e19]`, speed factor 1 and two
different fixes, the seconds of the two Trackpoints are `0` and `-2^63`. -/
theorem c6_second_overflows_amd64 :
    F64.lt F64.zero (dec "1") = true
    ∧ List.Chain' (fun a b => F64.le a b = true) [dec "0.0", dec "1e19"]
    ∧ (scan amd64 [dec "0.0", dec "1e19"] (dec "1")
        (packet fixPacket ++ packet laterFixPacket)).points.map (fun p => p.sec)
        = [0, -9223372036854775808]
    ∧ ¬ List.Chain' (fun p q : Trackpoint => p.sec ≤ q.sec)
        (scan amd64 [dec "0.0", dec "1e19"] (dec "1")
          (packet fixPacket ++ packet laterFixPacket)).points := by
  have hsec : (scan amd64 [dec "0.0", dec "1e19"] (dec "1")
      (packet fixPacket ++ packet laterFixPacket)).points.map (fun p => p.sec)
      = [0, -9223372036854775808] := by decide
  refine ⟨by decide, List.chain'_pair.mpr (by decide), hsec, fun h => ?_⟩
  have h2 := (List.chain'_map (fun p : Trackpoint => p.sec)).mpr h
  rw [hsec] at h2
  exact absurd (List.chain'_pair.mp h2) (by decide)

/-- C6, amended. For every raw stream and positive speed factor, if the
timestamp list is non-decreasing and `floor(t / speedFactor)` lies in the range
of `int` for every timestamp `t` of the list (so that the conversion of line
137 is defined), the output Trackpoint sequence is non-decreasing in `sec`, on
every target. -/
theorem c6_sec_sorted (A : Arch) (pts : List F64) (rawOut : List Nat) (speed : F64)
    (hspeed : F64.lt F64.zero speed = true)
    (hpts : List.Chain' (fun a b => F64.le a b = true) pts)
    (hfit : ∀ t ∈ pts, F64.fitsInt (F64.floor (F64.div t speed)) = true) :
    List.Chain' (fun p q : Trackpoint => p.sec ≤ q.sec) (scan A pts speed rawOut).points := by
  rw [← stateAfter_of_length_le A pts speed rawOut _ (Nat.le_refl _)]
  refine (stateAfter_sec_sorted A pts speed rawOut ?_ _).1
  intro i j ti tj hij hi hj
  have hmi : ti ∈ pts := List.getElem?_mem hi
  have hmj : tj ∈ pts := List.getElem?_mem hj
  cases speed with
  | nan => simp [F64.lt, F64.zero] at hspeed
  | inf s =>
    cases s
    · rw [F64.sec_inf A ti (hfit ti hmi), F64.sec_inf A tj (hfit tj hmj)]
    · simp [F64.lt, F64.zero] at hspeed
  | fin s ms es =>
    obtain ⟨hs, hms⟩ := F64.lt_zero_fin hspeed
    subst hs
    apply F64.sec_mono A ti tj ms es hms (hfit ti hmi) (hfit tj hmj)
    have hpw := F64.pairwise_toRat pts
      (fun t ht => F64.finite_of_fits t ms es (hfit t ht)) hpts
    rw [List.pairwise_iff_getElem] at hpw
    obtain ⟨hil, hie⟩ := List.getElem?_eq_some.mp hi
    obtain ⟨hjl, hje⟩ := List.getElem?_eq_some.mp hj
    rw [← hie, ← hje]
    exact hpw i j hil hjl hij

set_option maxRecDepth 100000 in
set_option exponentiation.threshold 2000 in
/-- C6 at a concrete input: two different fixes at timestamps 0.5 and 7.25 with
speed factor 3 give the seconds 0 and 2. -/
theorem c6_sec_sorted_witness :
    (scan amd64 [dec "0.5", dec "7.25"] (dec "3")
        (packet fixPacket ++ packet laterFixPacket)).points.map (fun p => p.sec) = [0, 2]
    ∧ List.Chain' (fun p q : Trackpoint => p.sec ≤ q.sec)
        (scan amd64 [dec "0.5", dec "7.25"] (dec "3")
          (packet fixPacket ++ packet laterFixPacket)).points :=
  ⟨by decide, c6_sec_sorted amd64 [dec "0.5", dec "7.25"] _ (dec "3")
    (by decide) (List.chain'_pair.mpr (by decide)) (by decide)⟩

/-! ## Date decoding (C11, C20) -/

theorem natDigits_year (n : Nat) (h1 : 1980 ≤ n) (h2 : n ≤ 2079) :
    natDigits n = [48 + n / 1000, 48 + n / 100 % 10, 48 + n / 10 % 10, 48 + n % 10] := by
  interval_cases n <;> rfl

theorem parseDate_of_length_ge (a b c d e f : Nat) (rest : Str) :
    parseDate (a :: b :: c :: d :: e :: f :: rest)
      = fmtInt (if atoi [e, f] < 80 then 2000 + atoi [e, f] else 1900 + atoi [e, f])
          ++ [45, c, d, 45, a, b] := by
  simp [parseDate, slice, B]

theorem atoi_two_digits (y1 y2 : Nat) (h1 : 48 ≤ y1 ∧ y1 ≤ 57) (h2 : 48 ≤ y2 ∧ y2 ≤ 57) :
    atoi [y1, y2] = (((y1 - 48) * 10 + (y2 - 48) : Nat) : Int) := by
  obtain ⟨a1, a2⟩ := h1
  obtain ⟨b1, b2⟩ := h2
  interval_cases y1 <;> interval_cases y2 <;> rfl

theorem atoi_two_range (e f : Nat) : -9 ≤ atoi [e, f] ∧ atoi [e, f] ≤ 99 := by
  unfold atoi
  simp only [List.head?_cons, Option.some.injEq, List.drop_succ_cons, List.drop_zero]
  by_cases hs : e = 45 ∨ e = 43
  · rw [if_pos hs]
    simp only [List.cons_ne_nil, if_false, digitsVal]
    by_cases hf : 48 ≤ f ∧ f ≤ 57
    · simp only [hf, and_self, if_true]
      split_ifs <;> omega
    · simp only [hf, if_false]
      omega
  · rw [if_neg hs]
    have h45 : e ≠ 45 := fun h => hs (Or.inl h)
    simp only [List.cons_ne_nil, if_false, digitsVal, h45, decide_False]
    by_cases he : 48 ≤ e ∧ e ≤ 57
    · by_cases hf : 48 ≤ f ∧ f ≤ 57
      · simp only [he, hf, and_self, if_true]
        split_ifs <;> omega
      · simp only [he, hf, and_self, if_true, if_false]
        omega
    · simp only [he, if_false]
      omega

/-- C11. `parseDate`: for six decimal digits `DDMMYY` the result is
`YYYY-MM-DD` with `YYYY = 2000 + YY` when `YY < 80` and `1900 + YY` otherwise
(`230394` gives `1994-03-23`, `050125` gives `2025-01-05`); for every string
shorter than 6 bytes the result is `1970-01-01`. -/
theorem c11_parseDate (raw : Str) :
    (∀ d1 d2 m1 m2 y1 y2 : Nat,
      (48 ≤ d1 ∧ d1 ≤ 57) → (48 ≤ d2 ∧ d2 ≤ 57) → (48 ≤ m1 ∧ m1 ≤ 57) →
      (48 ≤ m2 ∧ m2 ≤ 57) → (48 ≤ y1 ∧ y1 ≤ 57) → (48 ≤ y2 ∧ y2 ≤ 57) →
      ∃ year : Nat,
        year = (if (y1 - 48) * 10 + (y2 - 48) < 80 then 2000 + ((y1 - 48) * 10 + (y2 - 48))
                else 1900 + ((y1 - 48) * 10 + (y2 - 48)))
        ∧ parseDate [d1, d2, m1, m2, y1, y2]
            = [48 + year / 1000, 48 + year / 100 % 10, 48 + year / 10 % 10, 48 + year % 10,
               45, m1, m2, 45, d1, d2])
    ∧ (raw.length < 6 → parseDate raw = B "1970-01-01")
    ∧ parseDate (B "230394") = B "1994-03-23"
    ∧ parseDate (B "050125") = B "2025-01-05" := by
  refine ⟨?_, ?_, by decide, by decide⟩
  · intro d1 d2 m1 m2 y1 y2 _ _ _ _ hy1 hy2
    refine ⟨_, rfl, ?_⟩
    rw [parseDate_of_length_ge, atoi_two_digits y1 y2 hy1 hy2]
    generalize hyy : (y1 - 48) * 10 + (y2 - 48) = yy
    have hlt : yy < 100 := by omega
    by_cases h80 : yy < 80
    · have h80' : ((yy : Nat) : Int) < 80 := by omega
      rw [if_pos h80', if_pos h80]
      have e : (2000 + (yy : Int)) = ((2000 + yy : Nat) : Int) := by push_cast; rfl
      rw [e]
      simp only [fmtInt, Int.natAbs_ofNat]
      rw [if_neg (by omega), natDigits_year (2000 + yy) (by omega) (by omega)]
      rfl
    · have h80' : ¬ ((yy : Nat) : Int) < 80 := by omega
      rw [if_neg h80', if_neg h80]
      have e : (1900 + (yy : Int)) = ((1900 + yy : Nat) : Int) := by push_cast; rfl
      rw [e]
      simp only [fmtInt, Int.natAbs_ofNat]
      rw [if_neg (by omega), natDigits_year (1900 + yy) (by omega) (by omega)]
      rfl
  · intro h
    unfold parseDate
    rw [if_pos h]

/-- C20. For every input of 6 bytes or more, digits or not, `parseDate` returns
exactly 10 bytes of the form `YYYY-raw[2:4]-raw[0:2]`, with a year between 1980
and 2079, also when the two year bytes are no digits or carry a sign. -/
theorem c20_parseDate_shape (raw : Str) (h : 6 ≤ raw.length) :
    ∃ year : Nat, 1980 ≤ year ∧ year ≤ 2079
      ∧ parseDate raw
          = [48 + year / 1000, 48 + year / 100 % 10, 48 + year / 10 % 10, 48 + year % 10]
              ++ 45 :: (slice raw 2 4 ++ 45 :: slice raw 0 2)
      ∧ (parseDate raw).length = 10 := by
  match raw, h with
  | a :: b :: c :: d :: e :: f :: rest, _ =>
    obtain ⟨hlo, hhi⟩ := atoi_two_range e f
    rw [parseDate_of_length_ge]
    generalize atoi [e, f] = yy at hlo hhi
    have hy : ∃ year : Nat, 1980 ≤ year ∧ year ≤ 2079
        ∧ (if yy < 80 then 2000 + yy else 1900 + yy) = (year : Int) := by
      by_cases h80 : yy < 80
      · exact ⟨(2000 + yy).toNat, by omega, by omega, by rw [if_pos h80]; omega⟩
      · exact ⟨(1900 + yy).toNat, by omega, by omega, by rw [if_neg h80]; omega⟩
    obtain ⟨year, h1, h2, hyear⟩ := hy
    rw [hyear]
    refine ⟨year, h1, h2, ?_, ?_⟩
    · simp only [fmtInt, Int.natAbs_ofNat]
      rw [if_neg (by omega), natDigits_year year h1 h2]
      simp [slice]
    · simp only [fmtInt, Int.natAbs_ofNat]
      rw [if_neg (by omega), natDigits_year year h1 h2]
      simp

/-- C20 at a concrete input: a signed year `-5` gives 1995. -/
theorem c20_parseDate_shape_witness :
    ∃ year : Nat, 1980 ≤ year ∧ year ≤ 2079
      ∧ parseDate (B "2303-5")
          = [48 + year / 1000, 48 + year / 100 % 10, 48 + year / 10 % 10, 48 + year % 10]
              ++ 45 :: (slice (B "2303-5") 2 4 ++ 45 :: slice (B "2303-5") 0 2)
      ∧ (parseDate (B "2303-5")).length = 10 :=
  c20_parseDate_shape (B "2303-5") (by decide)

/-! ## Emitter clock (C15, C16) -/

theorem fmtInt02_length (x : Int) (h0 : 0 ≤ x) (h1 : x < 100) : (fmtInt02 x).length = 2 := by
  interval_cases x <;> rfl

theorem timeStr_eq (p : Trackpoint) :
    timeStr p = p.date ++ B "T" ++ fmtInt02 (Int.tdiv p.sec 3600) ++ B ":"
      ++ fmtInt02 (Int.tdiv (Int.tmod p.sec 3600) 60) ++ B ":"
      ++ fmtInt02 (Int.tmod p.sec 60) ++ B "Z" := rfl

/-- C16. Emitter clock arithmetic: for `sec ≥ 0` the emitted fields are
`h = sec / 3600`, `m = (sec % 3600) / 60` and `s = sec % 60`; they satisfy
`h * 3600 + m * 60 + s = sec` with `0 ≤ m < 60` and `0 ≤ s < 60`; when moreover
`sec < 86400`, `h < 24`, each field prints as two digits and `HH:MM:SS` is a
valid time of day. -/
theorem c16_clock (p : Trackpoint) (h : 0 ≤ p.sec) :
    ∃ hh mm ss : Int,
      hh = Int.tdiv p.sec 3600 ∧ mm = Int.tdiv (Int.tmod p.sec 3600) 60 ∧ ss = Int.tmod p.sec 60
      ∧ timeStr p = p.date ++ B "T" ++ fmtInt02 hh ++ B ":" ++ fmtInt02 mm ++ B ":"
          ++ fmtInt02 ss ++ B "Z"
      ∧ hh * 3600 + mm * 60 + ss = p.sec
      ∧ 0 ≤ hh ∧ 0 ≤ mm ∧ mm < 60 ∧ 0 ≤ ss ∧ ss < 60
      ∧ (p.sec < 86400 →
          hh < 24 ∧ (fmtInt02 hh).length = 2 ∧ (fmtInt02 mm).length = 2
            ∧ (fmtInt02 ss).length = 2) := by
  refine ⟨_, _, _, rfl, rfl, rfl, timeStr_eq p, ?_⟩
  have e1 : Int.tdiv p.sec 3600 = p.sec / 3600 := Int.tdiv_eq_ediv h (by norm_num)
  have e2 : Int.tmod p.sec 3600 = p.sec % 3600 := Int.tmod_eq_emod h (by norm_num)
  have e3 : Int.tmod p.sec 60 = p.sec % 60 := Int.tmod_eq_emod h (by norm_num)
  have e4 : Int.tdiv (p.sec % 3600) 60 = p.sec % 3600 / 60 :=
    Int.tdiv_eq_ediv (by omega) (by norm_num)
  rw [e1, e2, e3, e4]
  refine ⟨by omega, by omega, by omega, by omega, by omega, by omega, ?_⟩
  intro hlt
  exact ⟨by omega, fmtInt02_length _ (by omega) (by omega),
    fmtInt02_length _ (by omega) (by omega), fmtInt02_length _ (by omega) (by omega)⟩

/-- C16 at a concrete input: second 45296 is `12:34:56`. -/
theorem c16_clock_witness :
    ∃ hh mm ss : Int,
      hh = Int.tdiv (45296 : Int) 3600 ∧ mm = Int.tdiv (Int.tmod (45296 : Int) 3600) 60
      ∧ ss = Int.tmod (45296 : Int) 60
      ∧ timeStr ⟨F64.zero, F64.zero, F64.zero, F64.zero, B "1994-03-23", 45296⟩
          = B "1994-03-23" ++ B "T" ++ fmtInt02 hh ++ B ":" ++ fmtInt02 mm ++ B ":"
              ++ fmtInt02 ss ++ B "Z"
      ∧ hh * 3600 + mm * 60 + ss = 45296
      ∧ 0 ≤ hh ∧ 0 ≤ mm ∧ mm < 60 ∧ 0 ≤ ss ∧ ss < 60
      ∧ ((45296 : Int) < 86400 →
          hh < 24 ∧ (fmtInt02 hh).length = 2 ∧ (fmtInt02 mm).length = 2
            ∧ (fmtInt02 ss).length = 2) :=
  c16_clock ⟨F64.zero, F64.zero, F64.zero, F64.zero, B "1994-03-23", 45296⟩ (by decide)

set_option maxRecDepth 100000 in
set_option exponentiation.threshold 2000 in
/-- C15, as stated, fails: a fix at timestamp 86400.0 with speed factor 1 gets
the second 86400, and the emitted time is `1994-03-23T24:00:00Z`: the hour field
is 24, outside 00..23. -/
theorem c15_hour_24 :
    (scan amd64 [dec "86400.0"] (dec "1") (packet fixPacket)).points.map (fun p => p.sec)
      = [86400]
    ∧ (scan amd64 [dec "86400.0"] (dec "1") (packet fixPacket)).points.map timeStr
      = [B "1994-03-23T24:00:00Z"] := by
  decide

/-- C15, amended. For a Trackpoint whose video-relative second is 86400 or more
the emitted clock does not wrap: the hour field is `sec / 3600`, which is 24 or
more, the minute and second fields are those of C16, and the date stays the
date of the fix. -/
theorem c15_no_wrap (p : Trackpoint) (h : 86400 ≤ p.sec) :
    ∃ hh mm ss : Int,
      timeStr p = p.date ++ B "T" ++ fmtInt02 hh ++ B ":" ++ fmtInt02 mm ++ B ":"
        ++ fmtInt02 ss ++ B "Z"
      ∧ 24 ≤ hh ∧ hh * 3600 + mm * 60 + ss = p.sec
      ∧ 0 ≤ mm ∧ mm < 60 ∧ 0 ≤ ss ∧ ss < 60 := by
  refine ⟨_, _, _, timeStr_eq p, ?_⟩
  have h0 : 0 ≤ p.sec := by omega
  have e1 : Int.tdiv p.sec 3600 = p.sec / 3600 := Int.tdiv_eq_ediv h0 (by norm_num)
  have e2 : Int.tmod p.sec 3600 = p.sec % 3600 := Int.tmod_eq_emod h0 (by norm_num)
  have e3 : Int.tmod p.sec 60 = p.sec % 60 := Int.tmod_eq_emod h0 (by norm_num)
  have e4 : Int.tdiv (p.sec % 3600) 60 = p.sec % 3600 / 60 :=
    Int.tdiv_eq_ediv (by omega) (by norm_num)
  rw [e1, e2, e3, e4]
  refine ⟨by omega, by omega, by omega, by omega, by omega, by omega⟩

/-- C15 at a concrete input: second 90061 prints as `25:01:01`. -/
theorem c15_no_wrap_witness :
    timeStr ⟨F64.zero, F64.zero, F64.zero, F64.zero, B "1994-03-23", 90061⟩
      = B "1994-03-23T25:01:01Z"
    ∧ ∃ hh mm ss : Int,
      timeStr ⟨F64.zero, F64.zero, F64.zero, F64.zero, B "1994-03-23", 90061⟩
        = B "1994-03-23" ++ B "T" ++ fmtInt02 hh ++ B ":" ++ fmtInt02 mm ++ B ":"
          ++ fmtInt02 ss ++ B "Z"
      ∧ 24 ≤ hh ∧ hh * 3600 + mm * 60 + ss = 90061
      ∧ 0 ≤ mm ∧ mm < 60 ∧ 0 ≤ ss ∧ ss < 60 :=
  ⟨by decide, c15_no_wrap ⟨F64.zero, F64.zero, F64.zero, F64.zero, B "1994-03-23", 90061⟩
    (by decide)⟩

/-! ## Packets without a valid fix (C12) -/

theorem fixFields_eq_none {payload : List Nat}
    (h : findSubmatch payload = none
      ∨ ∃ body, findSubmatch payload = some body
          ∧ ((splitOn 44 body).length < 9 ∨ (splitOn 44 body).getD 1 [] ≠ B "A")) :
    fixFields payload = none := by
  unfold fixFields
  rcases h with h | ⟨body, hb, hv⟩
  · rw [h]
  · rw [hb]
    have : validFix (splitOn 44 body) = false := by
      unfold validFix
      rw [decide_eq_false_iff_not]
      rintro ⟨h1, h2⟩
      rcases hv with hv | hv
      · omega
      · exact hv h2
    simp [this]

/-- C12. A framed packet with no sentence match, or whose matched body splits
into fewer than 9 comma-separated fields, or whose field 1 is not exactly `A`,
leaves the Trackpoint sequence, the last NMEA time, the last formatted key and
the first-fix timestamp unchanged and advances the packet cursor by exactly
one. -/
theorem c12_no_fix_frame (A : Arch) (pts : List F64) (speed : F64) (st : State)
    (payload : List Nat)
    (h : findSubmatch payload = none
      ∨ ∃ body, findSubmatch payload = some body
          ∧ ((splitOn 44 body).length < 9 ∨ (splitOn 44 body).getD 1 [] ≠ B "A")) :
    (step A pts speed st payload).points = st.points
    ∧ (step A pts speed st payload).lastNMEATime = st.lastNMEATime
    ∧ (step A pts speed st payload).lastKey = st.lastKey
    ∧ (step A pts speed st payload).firstFixPTS = st.firstFixPTS
    ∧ (step A pts speed st payload).packetIdx = st.packetIdx + 1 := by
  rw [step_of_noFix A pts speed st (fixFields_eq_none h)]
  exact ⟨rfl, rfl, rfl, rfl, rfl⟩

set_option maxRecDepth 100000 in
/-- C12 at a concrete input: a sentence of status `V` after the fix of the
end-to-end example has been recorded. -/
theorem c12_no_fix_frame_witness :
    (step amd64 examplePts (dec "1") (stateAfter amd64 examplePts (dec "1") exampleStream 2)
        voidFixPacket).points
      = (stateAfter amd64 examplePts (dec "1") exampleStream 2).points
    ∧ (step amd64 examplePts (dec "1") (stateAfter amd64 examplePts (dec "1") exampleStream 2)
        voidFixPacket).lastNMEATime
      = (stateAfter amd64 examplePts (dec "1") exampleStream 2).lastNMEATime
    ∧ (step amd64 examplePts (dec "1") (stateAfter amd64 examplePts (dec "1") exampleStream 2)
        voidFixPacket).lastKey
      = (stateAfter amd64 examplePts (dec "1") exampleStream 2).lastKey
    ∧ (step amd64 examplePts (dec "1") (stateAfter amd64 examplePts (dec "1") exampleStream 2)
        voidFixPacket).firstFixPTS
      = (stateAfter amd64 examplePts (dec "1") exampleStream 2).firstFixPTS
    ∧ (step amd64 examplePts (dec "1") (stateAfter amd64 examplePts (dec "1") exampleStream 2)
        voidFixPacket).packetIdx
      = (stateAfter amd64 examplePts (dec "1") exampleStream 2).packetIdx + 1 :=
  c12_no_fix_frame amd64 examplePts (dec "1") _ voidFixPacket
    (Or.inr ⟨B "123519,V,4807.038,N,01131.000,E,022.4,084.4,230394,003.1,W",
      by decide, Or.inr (by decide)⟩)

/-! ## Termination of the framing (C17) -/

theorem readPacket_consumes {buf payload rest : List Nat}
    (h : readPacket buf = some (payload, rest)) :
    buf.length = 2 + payload.length + rest.length := by
  match buf, h with
  | b0 :: b1 :: r, h =>
    simp only [readPacket] at h
    split at h
    · exact Option.noConfusion h
    · split at h
      · exact Option.noConfusion h
      · simp only [Option.some.injEq, Prod.mk.injEq] at h
        rw [← h.1, ← h.2]
        simp only [List.length_take, List.length_drop, List.length_cons]
        omega

theorem frame_consumed (n : Nat) :
    ∀ buf : List Nat, buf.length ≤ n →
      ((frame buf).map (fun p => 2 + p.length)).sum ≤ buf.length
      ∧ 2 * (frame buf).length ≤ ((frame buf).map (fun p => 2 + p.length)).sum := by
  induction n with
  | zero =>
    intro buf h
    have : buf = [] := List.length_eq_zero.mp (Nat.le_zero.mp h)
    subst this
    exact ⟨by decide, by decide⟩
  | succ n ih =>
    intro buf h
    rw [frame_eq]
    cases hr : readPacket buf with
    | none => simp
    | some pr =>
      obtain ⟨payload, rest⟩ := pr
      have hc := readPacket_consumes hr
      obtain ⟨h1, h2⟩ := ih rest (by omega)
      simp only [List.map_cons, List.sum_cons, List.length_cons]
      constructor <;> omega

/-- C17. The framing loop terminates on every byte stream: a round that does
not stop consumes the 2 header bytes and the declared payload, so rounds beyond
`len / 2` frame nothing more (the loop and its framing are the same for every
larger bound), the number of framed packets is at most `floor(len / 2)`, and
the bytes consumed never exceed the length of the stream. -/
theorem c17_framing_terminates (raw : List Nat) :
    (∀ payload rest, readPacket raw = some (payload, rest) →
      raw.length = 2 + payload.length + rest.length)
    ∧ (∀ fuel, raw.length / 2 ≤ fuel → frameAux fuel raw = frame raw)
    ∧ (∀ (A : Arch) (pts : List F64) (speed : F64) (st : State) (fuel : Nat),
        raw.length / 2 ≤ fuel →
        loop A pts speed fuel raw st = loop A pts speed (raw.length / 2) raw st)
    ∧ (frame raw).length ≤ raw.length / 2
    ∧ ((frame raw).map (fun p => 2 + p.length)).sum ≤ raw.length := by
  obtain ⟨h1, h2⟩ := frame_consumed raw.length raw (Nat.le_refl _)
  refine ⟨fun _ _ h => readPacket_consumes h, fun fuel h => frameAux_eq_frame fuel raw h, ?_,
    by omega, h1⟩
  intro A pts speed st fuel h
  rw [loop_eq_foldl_frame A pts speed fuel raw st h,
    loop_eq_foldl_frame A pts speed _ raw st (Nat.le_refl _)]

/-! ## The first fix (C18, C19) -/

theorem step_lastNMEATime_of_points_nil (A : Arch) (pts : List F64) (speed : F64) (st : State)
    (payload : List Nat) (hI : Inv st) (hP : st.points = [] → st.lastNMEATime = [])
    (h : (step A pts speed st payload).points = []) :
    (step A pts speed st payload).lastNMEATime = [] := by
  rcases step_cases A pts speed st payload with e | ⟨f, hk, _, _, ⟨hkey, e⟩ | ⟨hkey, e⟩⟩
  · rw [e] at h ⊢; exact hP h
  · rw [e] at h
    have := (hI.1 h).2
    rw [this] at hkey
    exact absurd hkey (formatKey_ne_nil _ _ _ _)
  · rw [e] at h; simp at h

theorem foldl_lastNMEATime_of_points_nil (A : Arch) (pts : List F64) (speed : F64) :
    ∀ (l : List (List Nat)) (st : State), Inv st → (st.points = [] → st.lastNMEATime = []) →
      (l.foldl (step A pts speed) st).points = [] →
      (l.foldl (step A pts speed) st).lastNMEATime = [] := by
  intro l
  induction l with
  | nil => intro st _ hP h; exact hP h
  | cons p l ih =>
    intro st hI hP h
    exact ih _ (inv_step A pts speed st p hI)
      (step_lastNMEATime_of_points_nil A pts speed st p hI hP) h

theorem stateAfter_lastNMEATime_of_points_nil (A : Arch) (pts : List F64) (speed : F64)
    (rawOut : List Nat) (k : Nat) (h : (stateAfter A pts speed rawOut k).points = []) :
    (stateAfter A pts speed rawOut k).lastNMEATime = [] :=
  foldl_lastNMEATime_of_points_nil A pts speed _ _ inv_init (fun _ => rfl) h

theorem nmeaKey_eq_nil_iff (f : Str) : nmeaKey f = [] ↔ f = [] ∨ f.head? = some 46 := by
  cases f with
  | nil => simp [nmeaKey, indexByte]
  | cons b rest =>
    unfold nmeaKey
    simp only [indexByte]
    by_cases hb : b = 46
    · simp [hb]
    · simp only [hb, if_false, List.head?_cons, Option.some.injEq, or_self, iff_false,
        reduceCtorEq, false_or]
      by_cases hr : indexByte 46 rest < 0
      · simp [hr]
      · simp only [hr, if_false]
        have h1 : indexByte 46 rest + 1 ≥ 0 := by omega
        rw [if_pos h1]
        have h2 : (indexByte 46 rest + 1).toNat = (indexByte 46 rest).toNat + 1 := by omega
        rw [h2]
        simp

theorem step_of_fix_sameTime (A : Arch) (pts : List F64) (speed : F64) (st : State)
    {payload : List Nat} {fields : List Str} (h : fixFields payload = some fields)
    (ht : nmeaKey (fields.getD 0 []) = st.lastNMEATime) :
    step A pts speed st payload = { st with packetIdx := st.packetIdx + 1 } := by
  by_cases hk : st.packetIdx < pts.length
  · exact step_of_sameTime A pts speed st h hk ht
  · exact step_of_exhausted A pts speed st h (Nat.not_lt.mp hk)

set_option maxRecDepth 100000 in
set_option exponentiation.threshold 2000 in
/-- C19. While no Trackpoint is recorded (no earlier fix has passed the time
filter) the last NMEA time is still the initial empty string, so a valid fix
whose time key is empty (its time field is empty or starts with `.`) is dropped
as a duplicate: the packet only advances the cursor.  A stream all of whose
valid fixes have an empty time key yields no Trackpoint, as does the stream of
one fix with an empty time field. -/
theorem c19_empty_time_key (A : Arch) (pts : List F64) (rawOut : List Nat) (speed : F64) :
    (∀ k, (stateAfter A pts speed rawOut k).points = [] →
      (stateAfter A pts speed rawOut k).lastNMEATime = [])
    ∧ (∀ f : Str, nmeaKey f = [] ↔ f = [] ∨ f.head? = some 46)
    ∧ (∀ k (hk : k < (frame rawOut).length) (fields : List Str),
        fixFields ((frame rawOut).get ⟨k, hk⟩) = some fields →
        nmeaKey (fields.getD 0 []) = [] →
        (stateAfter A pts speed rawOut k).points = [] →
        stateAfter A pts speed rawOut (k + 1)
          = { stateAfter A pts speed rawOut k with
              packetIdx := (stateAfter A pts speed rawOut k).packetIdx + 1 })
    ∧ ((∀ k (hk : k < (frame rawOut).length) (fields : List Str),
          fixFields ((frame rawOut).get ⟨k, hk⟩) = some fields →
          nmeaKey (fields.getD 0 []) = []) →
        (scan A pts speed rawOut).points = [])
    ∧ (scan A [dec "1.0"] (dec "1") (packet untimedFixPacket)).points = [] := by
  have hdrop : ∀ k (hk : k < (frame rawOut).length) (fields : List Str),
      fixFields ((frame rawOut).get ⟨k, hk⟩) = some fields →
      nmeaKey (fields.getD 0 []) = [] →
      (stateAfter A pts speed rawOut k).points = [] →
      stateAfter A pts speed rawOut (k + 1)
        = { stateAfter A pts speed rawOut k with
            packetIdx := (stateAfter A pts speed rawOut k).packetIdx + 1 } := by
    intro k hk fields hf hkey hp
    rw [stateAfter_succ A pts speed rawOut k hk]
    exact step_of_fix_sameTime A pts speed _ hf
      (by rw [hkey, stateAfter_lastNMEATime_of_points_nil A pts speed rawOut k hp])
  refine ⟨stateAfter_lastNMEATime_of_points_nil A pts speed rawOut, nmeaKey_eq_nil_iff, hdrop,
    ?_, rfl⟩
  intro hall
  have hk : ∀ k, (stateAfter A pts speed rawOut k).points = [] := by
    intro k
    induction k with
    | zero => rfl
    | succ k ih =>
      by_cases hlt : k < (frame rawOut).length
      · cases hf : fixFields ((frame rawOut).get ⟨k, hlt⟩) with
        | none =>
          rw [stateAfter_succ A pts speed rawOut k hlt, step_of_noFix A pts speed _ hf]
          exact ih
        | some fields =>
          rw [hdrop k hlt fields hf (hall k hlt fields hf) ih]
          exact ih
      · rw [stateAfter_succ_of_length_le A pts speed rawOut k (Nat.not_lt.mp hlt)]
        exact ih
  rw [← stateAfter_of_length_le A pts speed rawOut _ (Nat.le_refl _)]
  exact hk _

set_option maxRecDepth 100000 in
set_option exponentiation.threshold 2000 in
/-- C18, as stated, fails: with timestamps `[-1.0, 5.0]` and two different
fixes, packet 0 (timestamp `-1.0`) appends the first Trackpoint, and the
first-fix timestamp at the end of the loop is `5.0`, that of packet 1. -/
theorem c18_first_fix_overwritten :
    (stateAfter amd64 [dec "-1.0", dec "5.0"] (dec "1")
      (packet fixPacket ++ packet laterFixPacket) 0).points = []
    ∧ (stateAfter amd64 [dec "-1.0", dec "5.0"] (dec "1")
      (packet fixPacket ++ packet laterFixPacket) 1).points.length = 1
    ∧ (scan amd64 [dec "-1.0", dec "5.0"] (dec "1")
      (packet fixPacket ++ packet laterFixPacket)).firstFixPTS = dec "5.0"
    ∧ dec "5.0" ≠ dec "-1.0" := by
  decide

/-- C18, amended. While no Trackpoint is recorded, the first-fix timestamp, the
last key and the last NMEA time are the initial ones.  The first valid fix to
pass the cursor check and the NMEA-time filter always becomes a Trackpoint (its
formatted key is not empty, the last key is), and its packet sets the first-fix
timestamp to its own timestamp `pts[k]`; that value stays to the end of the run
when `pts[k]` is not negative.  The packet that appends the first Trackpoint is
the one that sets the first-fix timestamp. -/
theorem c18_first_fix (A : Arch) (pts : List F64) (rawOut : List Nat) (speed : F64) :
    (∀ k, (stateAfter A pts speed rawOut k).points = [] →
      (stateAfter A pts speed rawOut k).firstFixPTS = F64.ofInt (-1)
      ∧ (stateAfter A pts speed rawOut k).lastKey = []
      ∧ (stateAfter A pts speed rawOut k).lastNMEATime = [])
    ∧ (∀ lat lon spd crs, formatKey lat lon spd crs ≠ [])
    ∧ (∀ k (hk : k < (frame rawOut).length) (fields : List Str) (t : F64),
        (stateAfter A pts speed rawOut k).points = [] →
        fixFields ((frame rawOut).get ⟨k, hk⟩) = some fields →
        pts[k]? = some t →
        nmeaKey (fields.getD 0 []) ≠ (stateAfter A pts speed rawOut k).lastNMEATime →
        (stateAfter A pts speed rawOut (k + 1)).points = [pointOf A speed fields t]
        ∧ (stateAfter A pts speed rawOut (k + 1)).firstFixPTS = t
        ∧ (F64.le F64.zero t = true → (scan A pts speed rawOut).firstFixPTS = t))
    ∧ (∀ k, (stateAfter A pts speed rawOut k).points = [] →
        (stateAfter A pts speed rawOut (k + 1)).points ≠ [] →
        ∃ t, pts[k]? = some t ∧ (stateAfter A pts speed rawOut (k + 1)).firstFixPTS = t) := by
  refine ⟨?_, formatKey_ne_nil, ?_, first_point_step A pts speed rawOut⟩
  · intro k h
    have hI := (inv_stateAfter A pts speed rawOut k).1 h
    exact ⟨hI.1, hI.2, stateAfter_lastNMEATime_of_points_nil A pts speed rawOut k h⟩
  · intro k hk fields t hp hf ht htime
    have hidx := stateAfter_packetIdx A pts speed rawOut k (Nat.le_of_lt hk)
    have hI := (inv_stateAfter A pts speed rawOut k).1 hp
    obtain ⟨hkl, hke⟩ := List.getElem?_eq_some.mp ht
    have hkl' : (stateAfter A pts speed rawOut k).packetIdx < pts.length := by
      rw [hidx]; exact hkl
    have hget : pts.get ⟨(stateAfter A pts speed rawOut k).packetIdx, hkl'⟩ = t := by
      simp only [List.get_eq_getElem, hidx]; exact hke
    have hkey : (pointOf A speed fields
        (pts.get ⟨(stateAfter A pts speed rawOut k).packetIdx, hkl'⟩)).key
        ≠ (stateAfter A pts speed rawOut k).lastKey := by
      rw [hI.2]; exact formatKey_ne_nil _ _ _ _
    have hstep := step_of_new A pts speed (stateAfter A pts speed rawOut k) hf hkl' htime hkey
    rw [hget] at hstep
    have hfirst : (stateAfter A pts speed rawOut (k + 1)).firstFixPTS = t := by
      rw [stateAfter_succ A pts speed rawOut k hk, hstep, hI.1]
      simp [F64.lt_negOne_zero]
    refine ⟨?_, hfirst, ?_⟩
    · rw [stateAfter_succ A pts speed rawOut k hk, hstep, hp]
      rfl
    · intro hnn
      rw [scan_eq_foldl_drop A pts speed rawOut (k + 1),
        foldl_firstFixPTS_of_nonneg A pts speed _ _ (by rw [hfirst]; exact hnn), hfirst]

/-! ## Speed and course (C14) -/

theorem parseFloat_errShape (s : Str) : ErrShape (parseFloat s) := by
  have hz : ErrShape (F64.zero, true) := fun _ => Or.inl rfl
  unfold parseFloat
  split
  · intro h; simp at h
  · lift_lets
    intro neg s1 hex sc st dp0 dp nd done
    have hdone : ∀ x us, ErrShape (done x us) := by
      intro x us
      simp only [done]
      split
      · exact hz
      · intro h
        right
        simp only at h
        generalize F64.ofScaled neg hex st.mant x = v at h ⊢
        cases v with
        | nan => simp at h
        | inf n => exact ⟨n, rfl⟩
        | fin a b c => simp at h
    repeat' first
      | exact hz
      | exact hdone _ _
      | split
      | (lift_lets; intro esign r1 ex; clear_value ex r1 esign)

theorem parseFloat_err (s : Str) (h : (parseFloat s).2 = true) :
    (parseFloat s).1 = F64.zero ∨ ∃ n, (parseFloat s).1 = F64.inf n :=
  parseFloat_errShape s h

set_option maxRecDepth 100000 in
set_option exponentiation.threshold 2000 in
/-- C14, as stated, fails: the speed field `1e309` fails to parse (a range
error, `err != nil`), and the value `ParseFloat` returns with that error is
`+Inf`, not 0; the recorded speed is `+Inf`. -/
theorem c14_range_error_speed :
    parseFloat (B "1e309") = (F64.inf false, true)
    ∧ (scan amd64 [dec "1.0"] (dec "1") (packet hugeSpeedFixPacket)).points.map
        (fun p => p.speed) = [F64.inf false]
    ∧ F64.inf false ≠ F64.zero
    ∧ (scan amd64 [dec "1.0"] (dec "1") (packet hugeSpeedFixPacket)).points.map
        (fun p => F64.fmtFixed 1 p.speed) = [B "+Inf"] :=
  ⟨by decide, by decide, by decide, by decide⟩

set_option maxRecDepth 100000 in
set_option exponentiation.threshold 2000 in
/-- C14, amended. For every valid fix that reaches decoding, the Trackpoint
speed is `knots × 1.852` and the course is the value of field 7, where the value
of a field is what `strconv.ParseFloat` returns, its error dropped: the number
when the field parses, and with an error either 0 (no number) or an infinity (a
number too large for float64); a field of value 0 gives the speed 0.  The errors
play no part in recording: the fix is appended whenever the cursor, the NMEA
time and the formatted key let it through. -/
theorem c14_speed_course (A : Arch) (speed : F64) (fields : List Str) (ptsVal : F64) :
    (pointOf A speed fields ptsVal).speed
      = F64.mul (parseFloat (fields.getD 6 [])).1 kmhPerKnot
    ∧ (pointOf A speed fields ptsVal).course = (parseFloat (fields.getD 7 [])).1
    ∧ (∀ s : Str, (parseFloat s).2 = true →
        (parseFloat s).1 = F64.zero ∨ ∃ n, (parseFloat s).1 = F64.inf n)
    ∧ ((parseFloat (fields.getD 6 [])).1 = F64.zero →
        (pointOf A speed fields ptsVal).speed = F64.zero)
    ∧ (∀ (pts : List F64) (st : State) (payload : List Nat) (hk : st.packetIdx < pts.length),
        fixFields payload = some fields →
        nmeaKey (fields.getD 0 []) ≠ st.lastNMEATime →
        (pointOf A speed fields (pts.get ⟨st.packetIdx, hk⟩)).key ≠ st.lastKey →
        (step A pts speed st payload).points
          = st.points ++ [pointOf A speed fields (pts.get ⟨st.packetIdx, hk⟩)])
    ∧ parseFloat (B "abc") = (F64.zero, true)
    ∧ parseFloat (B "022.4") = (dec "22.4", false) := by
  refine ⟨rfl, rfl, fun s h => parseFloat_errShape s h, ?_, ?_, by decide, by decide⟩
  · intro h
    show F64.mul (parseFloat (fields.getD 6 [])).1 kmhPerKnot = F64.zero
    rw [h]
    decide
  · intro pts st payload hk hf ht hkey
    rw [step_of_new A pts speed st hf hk ht hkey]

/-! ## Sentence extraction (C13) -/

theorem sentenceAt_nil (i : Nat) : ¬ sentenceAt [] i := by
  rintro ⟨t, b, rest, _, h, _⟩
  simp at h

theorem sentenceAt_succ (b : Nat) (l : List Nat) (i : Nat) :
    sentenceAt (b :: l) (i + 1) ↔ sentenceAt l i := Iff.rfl

theorem matchHere_eq_none_iff (s : List Nat) : matchHere s = none ↔ ¬ sentenceAt s 0 := by
  unfold matchHere sentenceAt
  match s with
  | [] => simp
  | [_] => simp
  | [_, _] => simp
  | [_, _, _] => simp
  | [_, _, _, _] => simp
  | [_, _, _, _, _] => simp
  | [_, _, _, _, _, _] => simp
  | d :: g :: t :: r :: m :: c :: k :: rest =>
    simp only [List.drop_zero, List.cons.injEq]
    by_cases hc : d = 36 ∧ g = 71 ∧ (t = 78 ∨ t = 80) ∧ r = 82 ∧ m = 77 ∧ c = 67 ∧ k = 44
    · rw [if_pos hc]
      obtain ⟨rfl, rfl, ht, rfl, rfl, rfl, rfl⟩ := hc
      cases rest with
      | nil => simp
      | cons b rest' =>
        by_cases hb : b ≠ 59 ∧ b ≠ 42
        · have : List.takeWhile (fun b => decide (b ≠ 59 ∧ b ≠ 42)) (b :: rest') ≠ [] := by
            rw [List.takeWhile_cons]; simp [hb]
          simp only [this, if_false, reduceCtorEq, false_iff, not_not]
          exact ⟨t, b, rest', ht, by simp, hb.1, hb.2⟩
        · have : List.takeWhile (fun b => decide (b ≠ 59 ∧ b ≠ 42)) (b :: rest') = [] := by
            rw [List.takeWhile_cons]; simp [hb]
          simp only [this, if_true, true_iff]
          rintro ⟨t', b', rest'', _, h, h1, h2⟩
          simp only [List.cons.injEq, true_and] at h
          exact hb (by rw [h.2.1]; exact ⟨h1, h2⟩)
    · rw [if_neg hc]
      simp only [true_iff]
      rintro ⟨t', b', rest'', ht', h, _, _⟩
      obtain ⟨rfl, rfl, rfl, rfl, rfl, rfl, rfl, _⟩ := h
      exact hc ⟨rfl, rfl, ht', rfl, rfl, rfl, rfl⟩

theorem matchHere_eq_some {s : List Nat} {body : Str} (h : matchHere s = some body) :
    body = (s.drop 7).takeWhile (fun b => decide (b ≠ 59 ∧ b ≠ 42)) ∧ body ≠ [] := by
  unfold matchHere at h
  match s, h with
  | d :: g :: t :: r :: m :: c :: k :: rest, h =>
    simp only at h
    split at h
    · split at h
      · exact Option.noConfusion h
      · rename_i hne
        simp only [Option.some.injEq] at h
        subst h
        exact ⟨rfl, hne⟩
    · exact Option.noConfusion h

theorem findSubmatch_none {payload : List Nat} (h : findSubmatch payload = none) :
    ∀ i, ¬ sentenceAt payload i := by
  induction payload with
  | nil => exact sentenceAt_nil
  | cons b rest ih =>
    unfold findSubmatch at h
    cases hm : matchHere (b :: rest) with
    | some body => rw [hm] at h; exact Option.noConfusion h
    | none =>
      rw [hm] at h
      intro i
      cases i with
      | zero => exact (matchHere_eq_none_iff _).mp hm
      | succ i => rw [sentenceAt_succ]; exact ih h i

theorem findSubmatch_some {payload : List Nat} {body : Str}
    (h : findSubmatch payload = some body) :
    ∃ i, sentenceAt payload i ∧ (∀ j, j < i → ¬ sentenceAt payload j)
      ∧ body = (payload.drop (i + 7)).takeWhile (fun b => decide (b ≠ 59 ∧ b ≠ 42))
      ∧ body ≠ [] := by
  induction payload with
  | nil => exact Option.noConfusion h
  | cons b rest ih =>
    unfold findSubmatch at h
    cases hm : matchHere (b :: rest) with
    | some body' =>
      rw [hm] at h
      simp only [Option.some.injEq] at h
      subst h
      have hs : sentenceAt (b :: rest) 0 := by
        by_contra hc
        rw [(matchHere_eq_none_iff _).mpr hc] at hm
        exact Option.noConfusion hm
      obtain ⟨e, hne⟩ := matchHere_eq_some hm
      exact ⟨0, hs, fun j hj => absurd hj (Nat.not_lt_zero j), e, hne⟩
    | none =>
      rw [hm] at h
      obtain ⟨i, hs, hmin, e, hne⟩ := ih h
      refine ⟨i + 1, (sentenceAt_succ b rest i).mpr hs, ?_, e, hne⟩
      intro j hj
      cases j with
      | zero => exact (matchHere_eq_none_iff _).mp hm
      | succ j => rw [sentenceAt_succ]; exact hmin j (by omega)

/-- C13. Sentence extraction: the extractor returns a match iff the payload
contains `$GPRMC,` or `$GNRMC,` immediately followed by at least one byte other
than `;` and `*`; the captured body then starts right after the comma of the
leftmost such occurrence, is not empty, contains no `;` and no `*`, and is
maximal: it is followed by `;`, by `*` or by the end of the payload. -/
theorem c13_sentence_extraction (payload : List Nat) :
    ((∃ body, findSubmatch payload = some body) ↔ ∃ i, sentenceAt payload i)
    ∧ (∀ body, findSubmatch payload = some body →
        ∃ i rest, sentenceAt payload i ∧ (∀ j, j < i → ¬ sentenceAt payload j)
          ∧ payload.drop (i + 7) = body ++ rest
          ∧ body ≠ []
          ∧ (∀ b ∈ body, b ≠ 59 ∧ b ≠ 42)
          ∧ (rest = [] ∨ rest.head? = some 59 ∨ rest.head? = some 42)) := by
  constructor
  · constructor
    · rintro ⟨body, h⟩
      obtain ⟨i, hs, _⟩ := findSubmatch_some h
      exact ⟨i, hs⟩
    · rintro ⟨i, hs⟩
      cases h : findSubmatch payload with
      | none => exact absurd hs (findSubmatch_none h i)
      | some body => exact ⟨body, rfl⟩
  · intro body h
    obtain ⟨i, hs, hmin, e, hne⟩ := findSubmatch_some h
    refine ⟨i, (payload.drop (i + 7)).dropWhile (fun b => decide (b ≠ 59 ∧ b ≠ 42)),
      hs, hmin, ?_, hne, ?_, ?_⟩
    · rw [e, List.takeWhile_append_dropWhile]
    · intro b hb
      rw [e] at hb
      simpa using List.mem_takeWhile_imp hb
    · generalize hr : (payload.drop (i + 7)).dropWhile (fun b => decide (b ≠ 59 ∧ b ≠ 42)) = r
      cases r with
      | nil => exact Or.inl rfl
      | cons x xs =>
        right
        have hx := List.head?_dropWhile_not (fun b => decide (b ≠ 59 ∧ b ≠ 42))
          (payload.drop (i + 7))
        rw [hr] at hx
        simp only [List.head?_cons, Option.map_some', Option.any_some, Bool.not_eq_true,
          decide_eq_false_iff_not, not_and_or, not_not] at hx
        simp only [List.head?_cons, Option.some.injEq]
        have hx' := hx
        simpa [not_and_or] using hx'

/-! ## The end-to-end example -/

set_option maxRecDepth 100000 in
theorem exampleScan_arch (A : Arch) :
    scan A examplePts (dec "1") exampleStream = scan amd64 examplePts (dec "1") exampleStream :=
  rfl

set_option maxRecDepth 100000 in
set_option exponentiation.threshold 2000 in
/-- C1. End-to-end example: the stream of three framed packets (a caption,
the `$GPRMC` fix, the same fix again) with timestamps `[0.0, 1.0, 2.0]` and
speed factor 1 frames into those three payloads and yields exactly one
Trackpoint, of date `1994-03-23` and second 1; it is appended by packet 1
(none after packet 0, the final sequence after packet 1, nothing more from
packet 2), and the printed offset is `1.0`. -/
theorem c1_end_to_end (A : Arch) (baseName : Str) :
    frame exampleStream = [captionPacket, fixPacket, fixPacket]
    ∧ (scan A examplePts (dec "1") exampleStream).points.map (fun p => (p.date, p.sec))
        = [(B "1994-03-23", 1)]
    ∧ (stateAfter A examplePts (dec "1") exampleStream 1).points = []
    ∧ (stateAfter A examplePts (dec "1") exampleStream 2).points
        = (scan A examplePts (dec "1") exampleStream).points
    ∧ (run A examplePts exampleStream (dec "1") baseName).stdout = B "1.0\n" :=
  ⟨by decide, rfl, rfl, rfl, rfl⟩

set_option maxRecDepth 100000 in
/-- C2, as stated, fails: the time string emitted for the single Trackpoint of
the end-to-end example is not `1994-03-23T12:35:19Z`. -/
theorem c2_time_is_not_the_utc_time :
    (scan amd64 examplePts (dec "1") exampleStream).points.map timeStr
      ≠ [B "1994-03-23T12:35:19Z"] := by
  decide

set_option maxRecDepth 100000 in
/-- C2, amended. In the end-to-end example the time string emitted for the
single Trackpoint is `1994-03-23T00:00:01Z`: the date of the fix followed by
the video-relative second `floor(1.0 / 1) = 1` as `HH:MM:SS`; the written
document holds exactly one `<trkpt>` line, with that time. -/
theorem c2_time_string (A : Arch) (baseName : Str) :
    (scan A examplePts (dec "1") exampleStream).points.map timeStr = [B "1994-03-23T00:00:01Z"]
    ∧ (run A examplePts exampleStream (dec "1") baseName).written
        = some (gpxDoc baseName (scan A examplePts (dec "1") exampleStream).points)
    ∧ (scan A examplePts (dec "1") exampleStream).points.map trkpt
        = [B ("      <trkpt lat=\"48.1173000\" lon=\"11.5166667\"><time>1994-03-23T00:00:01Z</time>"
            ++ "<speed>41.5</speed><course>84.4</course></trkpt>\n")] := by
  rw [exampleScan_arch A]
  exact ⟨by decide, rfl, by decide⟩


end TrendvisionGps
